import Mathlib

/-!
Verification development for the MahjongKit core (Partition Engine and Win/Score Engine).
Every definition below is a shallow embedding of the corresponding Python function in
MahjongKit.py; tiles are canonical 34-form values modelled as Nat, Python integers that can
go negative (shanten values, scores, floor divisions) are modelled as Int with Int.fdiv for
the Python floor division.  Description strings attached to yaku and fu entries in the
source are modelled by enumeration keys (one constructor per distinct description string);
the human-readable description outputs themselves carry no further information and are not
modelled.
-/

namespace Tile

def WINDS : List Nat := [27, 28, 29, 30]

def THREES : List Nat := [31, 32, 33]

def HONORS : List Nat := [27, 28, 29, 30, 31, 32, 33]

def ONES : List Nat := [0, 9, 18]

def NINES : List Nat := [8, 17, 26]

def TERMINALS : List Nat := [0, 8, 9, 17, 18, 26]

def ONENINE : List Nat := [0, 8, 9, 17, 18, 26, 27, 28, 29, 30, 31, 32, 33]

def GREENS : List Nat := [19, 20, 21, 23, 25, 32]

end Tile

/-- Python abs(a - b) on the nonnegative tile values. -/
def tdist (a b : Nat) : Nat := max a b - min a b

/-- Python subscription m[i]; every use in this embedding is length-guarded exactly as the
corresponding subscription in the source is. -/
def nth (m : List Nat) (i : Nat) : Nat := m.getD i 0

/-- Python min over a list of integers; the source only ever applies it to nonempty lists. -/
def listMinInt : List Int → Int
  | [] => 0
  | x :: xs => xs.foldl min x

/-- Python min over a list of naturals; the source only ever applies it to nonempty lists. -/
def listMinNat : List Nat → Nat
  | [] => 0
  | x :: xs => xs.foldl min x

/-- Python floor division, written // in the source. -/
def pydiv (a b : Int) : Int := Int.fdiv a b

/-- Insertion of one value into an ascending list, auxiliary for sortTiles. -/
def insertSorted (a : Nat) : List Nat → List Nat
  | [] => [a]
  | b :: l => if a ≤ b then a :: b :: l else b :: insertSorted a l

/-- Ascending sort of tile values, modelling the Python sort() call that the source applies
to the freshly built list hand_total. -/
def sortTiles (l : List Nat) : List Nat := l.foldr insertSorted []

/-- Python dict assignment d[k] = v: if the key is present its value is updated in place,
otherwise the new entry is appended; models the add_base and add_han helpers writing into
the description-keyed dictionaries of the source. -/
def dinsert {α : Type} [DecidableEq α] (d : List (α × Nat)) (k : α) (v : Nat) :
    List (α × Nat) :=
  if k ∈ d.map Prod.fst then d.map (fun e => if e.1 = k then (k, v) else e)
  else d ++ [(k, v)]

/-- Python sum(v for k, v in d.items()). -/
def sumVals {α : Type} (d : List (α × Nat)) : Nat := (d.map Prod.snd).sum

namespace Partition

/-- Branch list res built at one recursion level of Partition._partition_single_type: the
six branch rules of the source, in source order, where rec stands for the recursive call on
the shorter remainder list.  The chow branch first removes the head occurrence of
tiles34[0], matching the three remove calls of the source. -/
def psBranches (rec : List Nat → List (List (List Nat))) : List Nat → List (List (List Nat))
  | t0 :: t1 :: t2 :: rest =>
      (if t0 = t1 ∧ t1 = t2 then (rec rest).map (fun s => [t0, t1, t2] :: s) else [])
      ++ (if (t0 + 1) ∈ t0 :: t1 :: t2 :: rest ∧ (t0 + 2) ∈ t0 :: t1 :: t2 :: rest then
            (rec (((t1 :: t2 :: rest).erase (t0 + 1)).erase (t0 + 2))).map
              (fun s => [t0, t0 + 1, t0 + 2] :: s)
          else [])
      ++ (if (t0 + 1) ∈ t0 :: t1 :: t2 :: rest then
            (rec ((t1 :: t2 :: rest).erase (t0 + 1))).map (fun s => [t0, t0 + 1] :: s)
          else [])
      ++ (if (t0 + 2) ∈ t0 :: t1 :: t2 :: rest then
            (rec ((t1 :: t2 :: rest).erase (t0 + 2))).map (fun s => [t0, t0 + 2] :: s)
          else [])
      ++ (if t0 = t1 then (rec (t2 :: rest)).map (fun s => [t0, t1] :: s) else [])
      ++ (rec (t1 :: t2 :: rest)).map (fun s => [t0] :: s)
  | _ => []

/-- Final loop of Partition._partition_single_type building tuned_res: keep, in order of
first appearance, exactly the branch results of minimal group count, dropping duplicates. -/
def tune (res : List (List (List Nat))) : List (List (List Nat)) :=
  let min_len := listMinNat (res.map List.length)
  res.foldl (fun acc p => if p.length ≤ min_len ∧ p ∉ acc then acc ++ [p] else acc) []

/-- Fuel-indexed form of the recursion of Partition._partition_single_type.  The fuel only
bounds the recursion depth; every recursive call of the source is on a strictly shorter
list, so fuel equal to the list length (as supplied by partition_single_type) always
suffices and the zero-fuel fallback is unreachable. -/
def partitionSingleTypeF : Nat → List Nat → List (List (List Nat))
  | _, [] => [[]]
  | _, [a] => [[[a]]]
  | _, [a, b] => if tdist a b < 3 then [[[a, b]]] else [[[a], [b]]]
  | fuel + 1, t0 :: t1 :: t2 :: rest =>
      tune (psBranches (partitionSingleTypeF fuel) (t0 :: t1 :: t2 :: rest))
  | 0, _ => []

/-- Source Partition._partition_single_type. -/
def partition_single_type (tiles34 : List Nat) : List (List (List Nat)) :=
  partitionSingleTypeF tiles34.length tiles34

/-- Branch list res of the top recursion level of Partition._partition_single_type; on the
base-case inputs the source returns its result without branching, so there the branch list
is taken to be the returned list itself. -/
def partitionBranches (tiles34 : List Nat) : List (List (List Nat)) :=
  match tiles34 with
  | t0 :: t1 :: t2 :: rest => psBranches partition_single_type (t0 :: t1 :: t2 :: rest)
  | l => partition_single_type l

/-- Source Partition.partition: the per-suit partitions combined by full cross product with
the honor grouping, in which each distinct honor value becomes one group of its
multiplicity. -/
def partition (tiles34 : List Nat) : List (List (List Nat)) :=
  let p_man := partition_single_type (tiles34.filter (fun t => t < 9))
  let p_pin := partition_single_type (tiles34.filter (fun t => 9 ≤ t ∧ t < 18))
  let p_suo := partition_single_type (tiles34.filter (fun t => 18 ≤ t ∧ t < 27))
  let h_chr := tiles34.filter (fun t => 27 ≤ t ∧ t < 34)
  let p_chr := [h_chr.dedup.map (fun c => List.replicate (h_chr.count c) c)]
  ((p_man.map (fun pm =>
    ((p_pin.map (fun pp =>
      ((p_suo.map (fun ps =>
        p_chr.map (fun pc => pm ++ pp ++ ps ++ pc))).flatten))).flatten))).flatten)

/-- Geometry vector built by geo_vec_normal inside Partition._shantin_normal: component 0
counts singles, 1 the closed or edge partials, 2 the open two-sided partials, 3 pairs,
4 runs and 5 triplets, exactly as the increments of the source. -/
structure GeoVec where
  g0 : Nat
  g1 : Nat
  g2 : Nat
  g3 : Nat
  g4 : Nat
  g5 : Nat
deriving DecidableEq, Repr

/-- One loop iteration of geo_vec_normal; the five length tests of the source are mutually
exclusive, so the conditional chain is the sequence of guarded increments of the source. -/
def geoStep (g : GeoVec) (m : List Nat) : GeoVec :=
  if m.length = 1 then { g with g0 := g.g0 + 1 }
  else if m.length = 2 ∧ tdist (nth m 0) (nth m 1) = 0 then { g with g3 := g.g3 + 1 }
  else if m.length = 2 ∧ tdist (nth m 0) (nth m 1) = 1 then
    (if nth m 0 % 9 > 0 ∧ nth m 1 % 9 < 8 then { g with g2 := g.g2 + 1 }
     else { g with g1 := g.g1 + 1 })
  else if m.length = 2 ∧ tdist (nth m 0) (nth m 1) = 2 then { g with g1 := g.g1 + 1 }
  else if m.length = 3 then
    (if nth m 0 = nth m 1 then { g with g5 := g.g5 + 1 } else { g with g4 := g.g4 + 1 })
  else g

def geo_vec_normal (p : List (List Nat)) : GeoVec :=
  p.foldl geoStep ⟨0, 0, 0, 0, 0, 0⟩

/-- Per-partition value shantin_n inside Partition._shantin_normal. -/
def shantin_n (called_meld_num : Nat) (p : List (List Nat)) : Int :=
  let g := geo_vec_normal p
  let needed_set : Int := 4 - (called_meld_num : Int) - (g.g4 : Int) - (g.g5 : Int)
  if g.g3 > 0 then
    if (g.g1 : Int) + g.g2 + g.g3 - 1 ≥ needed_set then needed_set - 1
    else 2 * needed_set - ((g.g1 : Int) + g.g2 + g.g3 - 1) - 1
  else
    if (g.g1 : Int) + g.g2 ≥ needed_set then needed_set
    else 2 * needed_set - ((g.g1 : Int) + g.g2)

/-- Source Partition._shantin_normal. -/
def shantin_normal_partitions (partitions : List (List (List Nat)))
    (called_meld_num : Nat) : Int :=
  listMinInt (partitions.map (shantin_n called_meld_num))

/-- Source Partition.shantin_normal. -/
def shantin_normal (tiles34 : List Nat) (called_melds : List (List Nat)) : Int :=
  shantin_normal_partitions (partition tiles34) called_melds.length

/-- Source Partition.shantin_seven_pairs. -/
def shantin_seven_pairs (tiles34 : List Nat) (called_melds : List (List Nat)) : Int :=
  if called_melds.length > 0 then 10
  else
    let num_pair := (tiles34.dedup.filter (fun t => tiles34.count t ≥ 2)).length
    6 - (num_pair : Int)

end Partition

namespace Partition

theorem psBranches_congr (r1 r2 : List Nat → List (List (List Nat))) (t : List Nat)
    (h : ∀ l : List Nat, l.length < t.length → r1 l = r2 l) :
    psBranches r1 t = psBranches r2 t := by
  match t with
  | [] => rfl
  | [a] => rfl
  | [a, b] => rfl
  | t0 :: t1 :: t2 :: rest =>
    have e1 : rest.length < (t0 :: t1 :: t2 :: rest).length := by simp; omega
    have le1 := List.length_erase_le (t0 + 1) (t1 :: t2 :: rest)
    have le2 := List.length_erase_le (t0 + 2) ((t1 :: t2 :: rest).erase (t0 + 1))
    have le3 := List.length_erase_le (t0 + 2) (t1 :: t2 :: rest)
    have e2 : (((t1 :: t2 :: rest).erase (t0 + 1)).erase (t0 + 2)).length
        < (t0 :: t1 :: t2 :: rest).length := by
      simp only [List.length_cons] at *; omega
    have e3 : ((t1 :: t2 :: rest).erase (t0 + 1)).length
        < (t0 :: t1 :: t2 :: rest).length := by
      simp only [List.length_cons] at *; omega
    have e4 : ((t1 :: t2 :: rest).erase (t0 + 2)).length
        < (t0 :: t1 :: t2 :: rest).length := by
      simp only [List.length_cons] at *; omega
    have e5 : (t2 :: rest).length < (t0 :: t1 :: t2 :: rest).length := by simp
    have e6 : (t1 :: t2 :: rest).length < (t0 :: t1 :: t2 :: rest).length := by simp
    simp only [psBranches]
    rw [h rest e1, h _ e2, h _ e3, h _ e4, h _ e5, h _ e6]

theorem pstF_fuel (f : Nat) : ∀ t : List Nat, t.length ≤ f →
    partitionSingleTypeF f t = partition_single_type t := by
  induction f using Nat.strong_induction_on with
  | _ f IH =>
    intro t ht
    match t with
    | [] => cases f <;> rfl
    | [a] => cases f <;> rfl
    | [a, b] => cases f <;> rfl
    | t0 :: t1 :: t2 :: rest =>
      have hlen : (t0 :: t1 :: t2 :: rest).length = rest.length + 3 := by simp
      have hf3 : rest.length + 3 ≤ f := by omega
      obtain ⟨f', rfl⟩ : ∃ f', f = f' + 1 := ⟨f - 1, by omega⟩
      show tune (psBranches (partitionSingleTypeF f') (t0 :: t1 :: t2 :: rest)) = _
      have hrhs : partition_single_type (t0 :: t1 :: t2 :: rest)
          = tune (psBranches (partitionSingleTypeF (rest.length + 2))
              (t0 :: t1 :: t2 :: rest)) := by
        simp only [partition_single_type, List.length_cons]
        rfl
      rw [hrhs]
      congr 1
      apply psBranches_congr
      intro l hl
      have h1 : partitionSingleTypeF f' l = partition_single_type l := by
        apply IH f' (by omega) l
        simp only [List.length_cons] at hl; omega
      have h2 : partitionSingleTypeF (rest.length + 2) l = partition_single_type l := by
        apply IH (rest.length + 2) (by omega) l
        simp only [List.length_cons] at hl; omega
      rw [h1, h2]

theorem pst_eq_tune (t0 t1 t2 : Nat) (rest : List Nat) :
    partition_single_type (t0 :: t1 :: t2 :: rest) =
      tune (partitionBranches (t0 :: t1 :: t2 :: rest)) := by
  have h : partition_single_type (t0 :: t1 :: t2 :: rest)
      = tune (psBranches (partitionSingleTypeF (rest.length + 2))
          (t0 :: t1 :: t2 :: rest)) := by
    simp only [partition_single_type, List.length_cons]
    rfl
  rw [h]
  congr 1
  simp only [partitionBranches]
  apply psBranches_congr
  intro l hl
  apply pstF_fuel
  simp only [List.length_cons] at hl; omega

theorem foldlMin_le_init : ∀ (xs : List Nat) (b : Nat), xs.foldl min b ≤ b := by
  intro xs
  induction xs with
  | nil => intro b; simp
  | cons x xs IH =>
    intro b
    simp only [List.foldl_cons]
    exact le_trans (IH (min b x)) (min_le_left _ _)

theorem foldlMin_le_mem : ∀ (xs : List Nat) (b a : Nat), a ∈ xs → xs.foldl min b ≤ a := by
  intro xs
  induction xs with
  | nil => intro b a ha; simp at ha
  | cons x xs IH =>
    intro b a ha
    simp only [List.foldl_cons]
    rcases List.mem_cons.mp ha with rfl | ha
    · exact le_trans (foldlMin_le_init _ _) (min_le_right _ _)
    · exact IH _ a ha

theorem foldlMin_mem : ∀ (xs : List Nat) (b : Nat), xs.foldl min b = b ∨ xs.foldl min b ∈ xs := by
  intro xs
  induction xs with
  | nil => intro b; simp
  | cons x xs IH =>
    intro b
    simp only [List.foldl_cons]
    rcases IH (min b x) with h | h
    · rcases Nat.le_total b x with hbx | hxb
      · left; rw [h]; exact Nat.min_eq_left hbx
      · right; rw [h]; simp [Nat.min_eq_right hxb]
    · right; exact List.mem_cons_of_mem _ h

theorem listMinNat_le {a : Nat} {l : List Nat} (ha : a ∈ l) : listMinNat l ≤ a := by
  match l with
  | [] => simp at ha
  | x :: xs =>
    rcases List.mem_cons.mp ha with rfl | ha
    · exact foldlMin_le_init xs a
    · exact foldlMin_le_mem xs x a ha

theorem listMinNat_mem {l : List Nat} (h : l ≠ []) : listMinNat l ∈ l := by
  match l with
  | [] => exact absurd rfl h
  | x :: xs =>
    rcases foldlMin_mem xs x with h1 | h1
    · simp [listMinNat, h1]
    · exact List.mem_cons_of_mem _ (by simpa [listMinNat] using h1)

theorem tuneFold_mem (m : Nat) (res : List (List (List Nat))) :
    ∀ (acc : List (List (List Nat))) (x : List (List Nat)),
      x ∈ res.foldl (fun acc p => if p.length ≤ m ∧ p ∉ acc then acc ++ [p] else acc) acc →
      x ∈ acc ∨ (x ∈ res ∧ x.length ≤ m) := by
  induction res with
  | nil => intro acc x hx; exact Or.inl hx
  | cons p rest IH =>
    intro acc x hx
    simp only [List.foldl_cons] at hx
    rcases IH _ x hx with h | h
    · by_cases hc : p.length ≤ m ∧ p ∉ acc
      · rw [if_pos hc] at h
        rcases List.mem_append.mp h with h | h
        · exact Or.inl h
        · simp only [List.mem_singleton] at h
          subst h
          exact Or.inr ⟨List.mem_cons_self _ _, hc.1⟩
      · rw [if_neg hc] at h; exact Or.inl h
    · exact Or.inr ⟨List.mem_cons_of_mem _ h.1, h.2⟩

theorem tuneFold_nodup (m : Nat) (res : List (List (List Nat))) :
    ∀ (acc : List (List (List Nat))), acc.Nodup →
      (res.foldl (fun acc p => if p.length ≤ m ∧ p ∉ acc then acc ++ [p] else acc) acc).Nodup := by
  induction res with
  | nil => intro acc h; exact h
  | cons p rest IH =>
    intro acc h
    simp only [List.foldl_cons]
    apply IH
    by_cases hc : p.length ≤ m ∧ p ∉ acc
    · rw [if_pos hc]
      rw [List.nodup_append]
      refine ⟨h, List.nodup_singleton _, ?_⟩
      intro a ha hb
      simp only [List.mem_singleton] at hb
      subst hb
      exact hc.2 ha
    · rw [if_neg hc]; exact h

theorem tuneFold_ne_nil (m : Nat) (res : List (List (List Nat))) :
    ∀ (acc : List (List (List Nat))),
      (acc ≠ [] ∨ ∃ p ∈ res, p.length ≤ m) →
      res.foldl (fun acc p => if p.length ≤ m ∧ p ∉ acc then acc ++ [p] else acc) acc ≠ [] := by
  induction res with
  | nil =>
    intro acc h
    rcases h with h | ⟨p, hp, _⟩
    · exact h
    · simp at hp
  | cons p rest IH =>
    intro acc h
    simp only [List.foldl_cons]
    apply IH
    by_cases hc : p.length ≤ m ∧ p ∉ acc
    · left; rw [if_pos hc]; simp
    · rw [if_neg hc]
      rcases h with h | ⟨q, hq, hlq⟩
      · exact Or.inl h
      · rcases List.mem_cons.mp hq with rfl | hq
        · left
          intro hacc
          exact hc ⟨hlq, by simp [hacc]⟩
        · exact Or.inr ⟨q, hq, hlq⟩

theorem tune_subset {res : List (List (List Nat))} {x : List (List Nat)}
    (hx : x ∈ tune res) : x ∈ res := by
  simp only [tune] at hx
  rcases tuneFold_mem _ res [] x hx with h | h
  · simp at h
  · exact h.1

theorem tune_length {res : List (List (List Nat))} {x : List (List Nat)}
    (hx : x ∈ tune res) : x.length = listMinNat (res.map List.length) := by
  simp only [tune] at hx
  rcases tuneFold_mem _ res [] x hx with h | h
  · simp at h
  · refine le_antisymm h.2 ?_
    exact listMinNat_le (List.mem_map_of_mem List.length h.1)

theorem tune_nodup (res : List (List (List Nat))) : (tune res).Nodup := by
  simp only [tune]
  exact tuneFold_nodup _ res [] List.nodup_nil

theorem tune_ne_nil {res : List (List (List Nat))} (h : res ≠ []) : tune res ≠ [] := by
  simp only [tune]
  apply tuneFold_ne_nil
  right
  have hmem : listMinNat (res.map List.length) ∈ res.map List.length :=
    listMinNat_mem (by simpa using h)
  rcases List.mem_map.mp hmem with ⟨p, hp, hlen⟩
  exact ⟨p, hp, le_of_eq hlen⟩

/-- Membership in a conditional list, used to take the branch lists of the source apart. -/
theorem mem_ite_list {α : Type} {c : Prop} [Decidable c] {l1 l2 : List α} {a : α} :
    a ∈ (if c then l1 else l2) ↔ (c ∧ a ∈ l1) ∨ (¬c ∧ a ∈ l2) := by
  split <;> rename_i h <;> simp [h]

/-- Shape classification of every group the partition search can produce: a length-2 group
spans at most two ranks and a length-3 group is an exact triplet or an exact run.  Groups of
any other length are unconstrained; they only arise from the honor grouping. -/
def GroupOK : List Nat → Prop
  | [a, b] => tdist a b ≤ 2
  | [a, b, c] => (b = a ∧ c = a) ∨ (b = a + 1 ∧ c = a + 2)
  | _ => True


theorem pst_spec : ∀ (n : Nat) (t : List Nat), t.length ≤ n →
    ∀ d ∈ partition_single_type t, d.flatten.Perm t ∧ ∀ g ∈ d, GroupOK g := by
  intro n
  induction n using Nat.strong_induction_on with
  | _ n IH =>
    intro t ht d hd
    match t with
    | [] =>
      simp only [partition_single_type, List.length_nil, partitionSingleTypeF,
        List.mem_singleton] at hd
      subst hd
      exact ⟨by simp, by simp⟩
    | [a] =>
      simp only [partition_single_type, List.length_singleton, partitionSingleTypeF,
        List.mem_singleton] at hd
      subst hd
      refine ⟨by simp, ?_⟩
      intro g hg
      simp only [List.mem_singleton] at hg
      subst hg
      trivial
    | [a, b] =>
      have he : partition_single_type [a, b]
          = if tdist a b < 3 then [[[a, b]]] else [[[a], [b]]] := rfl
      rw [he] at hd
      by_cases htd : tdist a b < 3
      · rw [if_pos htd] at hd
        simp only [List.mem_singleton] at hd
        subst hd
        refine ⟨by simp, ?_⟩
        intro g hg
        simp only [List.mem_singleton] at hg
        subst hg
        show tdist a b ≤ 2
        omega
      · rw [if_neg htd] at hd
        simp only [List.mem_singleton] at hd
        subst hd
        refine ⟨by simp, ?_⟩
        intro g hg
        simp only [List.mem_cons, List.mem_singleton, List.not_mem_nil, or_false] at hg
        rcases hg with rfl | rfl <;> trivial
    | t0 :: t1 :: t2 :: rest =>
      rw [pst_eq_tune] at hd
      have hd2 := tune_subset hd
      have hn3 : 3 ≤ n := by
        simp only [List.length_cons] at ht; omega
      have hIH : ∀ (l : List Nat), l.length < rest.length + 3 →
          ∀ d ∈ partition_single_type l, d.flatten.Perm l ∧ ∀ g ∈ d, GroupOK g := by
        intro l hl
        apply IH (n - 1) (by omega) l
        simp only [List.length_cons] at ht
        omega
      simp only [partitionBranches, psBranches, List.mem_append, mem_ite_list,
        List.mem_map, List.not_mem_nil, and_false, or_false, false_or] at hd2
      have hne1 : t0 + 1 ≠ t0 := by omega
      have hne2 : t0 + 2 ≠ t0 := by omega
      have hne12 : t0 + 2 ≠ t0 + 1 := by omega
      rcases hd2 with ((((⟨⟨h01, h12⟩, s, hs, rfl⟩ | ⟨⟨hm1, hm2⟩, s, hs, rfl⟩) |
        ⟨hm1, s, hs, rfl⟩) | ⟨hm2, s, hs, rfl⟩) | ⟨h01, s, hs, rfl⟩) | ⟨s, hs, rfl⟩
      · -- pon branch
        obtain ⟨hp, hok⟩ := hIH rest (by omega) s hs
        constructor
        · simp only [List.flatten_cons]
          exact hp.append_left _
        · intro g hg
          rcases List.mem_cons.mp hg with rfl | hg
          · exact Or.inl ⟨h01.symm, (h01.trans h12).symm⟩
          · exact hok g hg
      · -- chow branch
        have hml := List.length_erase_le (t0 + 1) (t1 :: t2 :: rest)
        have hml2 := List.length_erase_le (t0 + 2) ((t1 :: t2 :: rest).erase (t0 + 1))
        obtain ⟨hp, hok⟩ := hIH (((t1 :: t2 :: rest).erase (t0 + 1)).erase (t0 + 2))
          (by simp only [List.length_cons] at *; omega) s hs
        have hm1t : t0 + 1 ∈ t1 :: t2 :: rest := by
          rcases List.mem_cons.mp hm1 with h | h
          · exact absurd h hne1
          · exact h
        have hm2t : t0 + 2 ∈ (t1 :: t2 :: rest).erase (t0 + 1) := by
          rcases List.mem_cons.mp hm2 with h | h
          · exact absurd h hne2
          · exact (List.mem_erase_of_ne hne12).mpr h
        have htail : (t1 :: t2 :: rest).Perm ((t0 + 1) :: (t0 + 2) ::
            ((t1 :: t2 :: rest).erase (t0 + 1)).erase (t0 + 2)) :=
          (List.perm_cons_erase hm1t).trans ((List.perm_cons_erase hm2t).cons _)
        constructor
        · simp only [List.flatten_cons]
          exact ((((hp.cons (t0 + 2)).cons (t0 + 1)).trans htail.symm).cons t0)
        · intro g hg
          rcases List.mem_cons.mp hg with rfl | hg
          · exact Or.inr ⟨rfl, rfl⟩
          · exact hok g hg
      · -- open partial branch
        have hml := List.length_erase_le (t0 + 1) (t1 :: t2 :: rest)
        obtain ⟨hp, hok⟩ := hIH ((t1 :: t2 :: rest).erase (t0 + 1))
          (by simp only [List.length_cons] at *; omega) s hs
        have hm1t : t0 + 1 ∈ t1 :: t2 :: rest := by
          rcases List.mem_cons.mp hm1 with h | h
          · exact absurd h hne1
          · exact h
        constructor
        · simp only [List.flatten_cons]
          exact (((hp.cons (t0 + 1)).trans (List.perm_cons_erase hm1t).symm).cons t0)
        · intro g hg
          rcases List.mem_cons.mp hg with rfl | hg
          · show tdist t0 (t0 + 1) ≤ 2
            simp [tdist]
          · exact hok g hg
      · -- edge partial branch
        have hml := List.length_erase_le (t0 + 2) (t1 :: t2 :: rest)
        obtain ⟨hp, hok⟩ := hIH ((t1 :: t2 :: rest).erase (t0 + 2))
          (by simp only [List.length_cons] at *; omega) s hs
        have hm2t : t0 + 2 ∈ t1 :: t2 :: rest := by
          rcases List.mem_cons.mp hm2 with h | h
          · exact absurd h hne2
          · exact h
        constructor
        · simp only [List.flatten_cons]
          exact (((hp.cons (t0 + 2)).trans (List.perm_cons_erase hm2t).symm).cons t0)
        · intro g hg
          rcases List.mem_cons.mp hg with rfl | hg
          · show tdist t0 (t0 + 2) ≤ 2
            simp [tdist]
          · exact hok g hg
      · -- pair branch
        obtain ⟨hp, hok⟩ := hIH (t2 :: rest) (by simp) s hs
        constructor
        · simp only [List.flatten_cons]
          exact (hp.cons t1).cons t0
        · intro g hg
          rcases List.mem_cons.mp hg with rfl | hg
          · show tdist t0 t1 ≤ 2
            subst h01
            simp [tdist]
          · exact hok g hg
      · -- single branch
        obtain ⟨hp, hok⟩ := hIH (t1 :: t2 :: rest) (by simp) s hs
        constructor
        · simp only [List.flatten_cons]
          exact hp.cons t0
        · intro g hg
          rcases List.mem_cons.mp hg with rfl | hg
          · trivial
          · exact hok g hg

theorem pst_flatten_perm {t : List Nat} {d : List (List Nat)}
    (hd : d ∈ partition_single_type t) : d.flatten.Perm t :=
  (pst_spec t.length t le_rfl d hd).1

theorem pst_groupOK {t : List Nat} {d : List (List Nat)}
    (hd : d ∈ partition_single_type t) : ∀ g ∈ d, GroupOK g :=
  (pst_spec t.length t le_rfl d hd).2

theorem pst_mem_branches {t : List Nat} {d : List (List Nat)}
    (hd : d ∈ partition_single_type t) :
    d ∈ partitionBranches t ∧
      d.length = listMinNat ((partitionBranches t).map List.length) := by
  match t with
  | [] =>
    have he : partition_single_type ([] : List Nat) = [[]] := rfl
    rw [he] at hd
    simp only [List.mem_singleton] at hd
    subst hd
    exact ⟨List.mem_singleton.mpr rfl, rfl⟩
  | [a] =>
    have he : partition_single_type [a] = [[[a]]] := rfl
    rw [he] at hd
    simp only [List.mem_singleton] at hd
    subst hd
    exact ⟨List.mem_singleton.mpr rfl, rfl⟩
  | [a, b] =>
    have he : partition_single_type [a, b]
        = if tdist a b < 3 then [[[a, b]]] else [[[a], [b]]] := rfl
    have heb : partitionBranches [a, b] = partition_single_type [a, b] := rfl
    by_cases htd : tdist a b < 3
    · rw [he, if_pos htd] at hd
      simp only [List.mem_singleton] at hd
      subst hd
      rw [heb, he, if_pos htd]
      exact ⟨List.mem_singleton.mpr rfl, rfl⟩
    · rw [he, if_neg htd] at hd
      simp only [List.mem_singleton] at hd
      subst hd
      rw [heb, he, if_neg htd]
      exact ⟨List.mem_singleton.mpr rfl, rfl⟩
  | t0 :: t1 :: t2 :: rest =>
    rw [pst_eq_tune] at hd
    exact ⟨tune_subset hd, tune_length hd⟩

theorem pst_nodup (t : List Nat) : (partition_single_type t).Nodup := by
  match t with
  | [] => exact List.nodup_singleton _
  | [a] => exact List.nodup_singleton _
  | [a, b] =>
    have he : partition_single_type [a, b]
        = if tdist a b < 3 then [[[a, b]]] else [[[a], [b]]] := rfl
    rw [he]
    split
    · exact List.nodup_singleton _
    · exact List.nodup_singleton _
  | t0 :: t1 :: t2 :: rest =>
    rw [pst_eq_tune]
    exact tune_nodup _

theorem pst_ne_nil_aux : ∀ (n : Nat) (t : List Nat), t.length ≤ n →
    partition_single_type t ≠ [] := by
  intro n
  induction n using Nat.strong_induction_on with
  | _ n IH =>
    intro t ht
    match t with
    | [] => simp [partition_single_type, partitionSingleTypeF]
    | [a] => simp [partition_single_type, partitionSingleTypeF]
    | [a, b] =>
      have he : partition_single_type [a, b]
          = if tdist a b < 3 then [[[a, b]]] else [[[a], [b]]] := rfl
      rw [he]
      split <;> simp
    | t0 :: t1 :: t2 :: rest =>
      have htail : partition_single_type (t1 :: t2 :: rest) ≠ [] := by
        apply IH (n - 1) ?_ (t1 :: t2 :: rest) ?_ <;>
          simp only [List.length_cons] at * <;> omega
      rw [pst_eq_tune]
      apply tune_ne_nil
      simp only [partitionBranches, psBranches]
      intro hnil
      rw [List.append_eq_nil] at hnil
      exact htail (List.map_eq_nil_iff.mp hnil.2)

theorem pst_ne_nil (t : List Nat) : partition_single_type t ≠ [] :=
  pst_ne_nil_aux t.length t le_rfl

theorem replicate_groupOK (k c : Nat) : GroupOK (List.replicate k c) := by
  match k with
  | 0 => trivial
  | 1 => trivial
  | 2 =>
    show tdist c c ≤ 2
    simp [tdist]
  | 3 => exact Or.inl ⟨rfl, rfl⟩
  | n + 4 => trivial

theorem sum_map_ite_count {α : Type} [DecidableEq α] (f : α → Nat) (x : α) :
    ∀ (ks : List α), ks.Nodup →
      (ks.map (fun c => if x = c then f c else 0)).sum = if x ∈ ks then f x else 0 := by
  intro ks
  induction ks with
  | nil => intro _; simp
  | cons k ks IH =>
    intro hnd
    have hnd2 := (List.nodup_cons.mp hnd).2
    have hk := (List.nodup_cons.mp hnd).1
    simp only [List.map_cons, List.sum_cons, IH hnd2]
    by_cases hxk : x = k
    · subst hxk
      rw [if_pos rfl, if_neg hk, if_pos (List.mem_cons_self _ _)]
      omega
    · rw [if_neg hxk]
      by_cases hxs : x ∈ ks
      · rw [if_pos hxs, if_pos (List.mem_cons_of_mem _ hxs)]
        omega
      · rw [if_neg hxs, if_neg (by simp [hxk, hxs])]

theorem honor_flatten_perm (h : List Nat) :
    ((h.dedup.map (fun c => List.replicate (h.count c) c)).flatten).Perm h := by
  rw [List.perm_iff_count]
  intro x
  rw [List.count_flatten, List.map_map]
  have hcong : (h.dedup.map (List.count x ∘ fun c => List.replicate (h.count c) c))
      = h.dedup.map (fun c => if x = c then h.count c else 0) := by
    apply List.map_congr_left
    intro c _
    simp only [Function.comp_apply, List.count_replicate]
    by_cases hxc : x = c
    · subst hxc; simp
    · simp [hxc, Ne.symm hxc]
  rw [hcong, sum_map_ite_count _ _ _ h.nodup_dedup]
  by_cases hx : x ∈ h
  · rw [if_pos (List.mem_dedup.mpr hx)]
  · rw [if_neg (fun hc => hx (List.mem_dedup.mp hc)), List.count_eq_zero_of_not_mem hx]


theorem count_filter_neg {p : Nat → Bool} {a : Nat} (h : p a = false) (l : List Nat) :
    List.count a (l.filter p) = 0 := by
  rw [List.count_eq_zero]
  intro hm
  have := (List.mem_filter.mp hm).2
  rw [h] at this
  exact Bool.noConfusion this

theorem count_filter_split (p : Nat → Bool) (a : Nat) (l : List Nat) :
    List.count a (l.filter p) = if p a then List.count a l else 0 := by
  by_cases h : p a = true
  · rw [List.count_filter h, if_pos h]
  · have hf : p a = false := by revert h; cases p a <;> simp
    rw [count_filter_neg hf l, if_neg (by simp [hf])]

theorem filter_four_perm (l : List Nat) (hb : ∀ x ∈ l, x < 34) :
    ((l.filter (fun t => t < 9)) ++ (l.filter (fun t => 9 ≤ t ∧ t < 18)) ++
      (l.filter (fun t => 18 ≤ t ∧ t < 27)) ++
      (l.filter (fun t => 27 ≤ t ∧ t < 34))).Perm l := by
  rw [List.perm_iff_count]
  intro y
  simp only [List.count_append, count_filter_split, decide_eq_true_eq]
  by_cases h4 : y < 34
  · split_ifs <;> omega
  · have h0 : List.count y l = 0 :=
      List.count_eq_zero_of_not_mem (fun hy => h4 (hb y hy))
    split_ifs <;> omega

theorem partition_mem {t : List Nat} {d : List (List Nat)} :
    d ∈ partition t ↔
      ∃ pm ∈ partition_single_type (t.filter (fun x => x < 9)),
      ∃ pp ∈ partition_single_type (t.filter (fun x => 9 ≤ x ∧ x < 18)),
      ∃ ps ∈ partition_single_type (t.filter (fun x => 18 ≤ x ∧ x < 27)),
      d = pm ++ pp ++ ps ++ ((t.filter (fun x => 27 ≤ x ∧ x < 34)).dedup.map
          (fun c => List.replicate ((t.filter (fun x => 27 ≤ x ∧ x < 34)).count c) c)) := by
  simp only [partition, List.mem_flatten, List.mem_map, List.mem_singleton]
  constructor
  · rintro ⟨L1, ⟨pm, hpm, rfl⟩, hL1⟩
    simp only [List.mem_flatten, List.mem_map, List.mem_singleton] at hL1
    rcases hL1 with ⟨L2, ⟨pp, hpp, rfl⟩, hL2⟩
    simp only [List.mem_flatten, List.mem_map, List.mem_singleton] at hL2
    rcases hL2 with ⟨L3, ⟨ps, hps, rfl⟩, hL3⟩
    simp only [List.mem_map, List.mem_singleton] at hL3
    rcases hL3 with ⟨pc, rfl, rfl⟩
    exact ⟨pm, hpm, pp, hpp, ps, hps, rfl⟩
  · rintro ⟨pm, hpm, pp, hpp, ps, hps, rfl⟩
    refine ⟨_, ⟨pm, hpm, rfl⟩, ?_⟩
    simp only [List.mem_flatten, List.mem_map, List.mem_singleton]
    refine ⟨_, ⟨pp, hpp, rfl⟩, ?_⟩
    simp only [List.mem_flatten, List.mem_map, List.mem_singleton]
    refine ⟨_, ⟨ps, hps, rfl⟩, ?_⟩
    simp only [List.mem_map, List.mem_singleton]
    exact ⟨_, rfl, rfl⟩

theorem partition_groupOK {t : List Nat} {d : List (List Nat)}
    (hd : d ∈ partition t) : ∀ g ∈ d, GroupOK g := by
  rcases partition_mem.mp hd with ⟨pm, hpm, pp, hpp, ps, hps, rfl⟩
  intro g hg
  simp only [List.mem_append] at hg
  rcases hg with ((hg | hg) | hg) | hg
  · exact pst_groupOK hpm g hg
  · exact pst_groupOK hpp g hg
  · exact pst_groupOK hps g hg
  · rcases List.mem_map.mp hg with ⟨c, _, rfl⟩
    exact replicate_groupOK _ _

theorem partition_flatten_perm {t : List Nat} {d : List (List Nat)}
    (hb : ∀ x ∈ t, x ≤ 33) (hd : d ∈ partition t) : d.flatten.Perm t := by
  rcases partition_mem.mp hd with ⟨pm, hpm, pp, hpp, ps, hps, rfl⟩
  simp only [List.flatten_append]
  have h1 := pst_flatten_perm hpm
  have h2 := pst_flatten_perm hpp
  have h3 := pst_flatten_perm hps
  have h4 := honor_flatten_perm (t.filter (fun x => 27 ≤ x ∧ x < 34))
  have hcomb := ((h1.append h2).append h3).append h4
  refine hcomb.trans ?_
  have hb34 : ∀ x ∈ t, x < 34 := fun x hx => by have := hb x hx; omega
  have := filter_four_perm t hb34
  refine List.Perm.trans ?_ this
  apply List.Perm.of_eq
  congr 1

theorem partition_length_const {t : List Nat} {d1 d2 : List (List Nat)}
    (h1 : d1 ∈ partition t) (h2 : d2 ∈ partition t) : d1.length = d2.length := by
  rcases partition_mem.mp h1 with ⟨pm1, hpm1, pp1, hpp1, ps1, hps1, rfl⟩
  rcases partition_mem.mp h2 with ⟨pm2, hpm2, pp2, hpp2, ps2, hps2, rfl⟩
  have em1 := (pst_mem_branches hpm1).2
  have em2 := (pst_mem_branches hpm2).2
  have ep1 := (pst_mem_branches hpp1).2
  have ep2 := (pst_mem_branches hpp2).2
  have es1 := (pst_mem_branches hps1).2
  have es2 := (pst_mem_branches hps2).2
  simp only [List.length_append]
  omega

end Partition

/-- Group shape predicates written from the words of claim C4: a run is three consecutive
values, a triplet three equal values, a pair two equal values and a partial any other
two-tile group. -/
def claimIsRun : List Nat → Bool
  | [a, b, c] => b == a + 1 && c == a + 2
  | _ => false

def claimIsTriplet : List Nat → Bool
  | [a, b, c] => b == a && c == a
  | _ => false

def claimIsPair : List Nat → Bool
  | [a, b] => a == b
  | _ => false

def claimIsPartial : List Nat → Bool
  | [a, b] => a != b
  | _ => false

/-- Shanten formula written from the words of claim C4: with needed-sets equal to
4 minus called melds minus runs minus triplets, a decomposition holding a pair scores
needed-sets minus 1 when the reserve partials (partials plus pairs minus the reserved head
pair) cover needed-sets and 2 needed-sets minus reserve partials minus 1 otherwise; without
a pair it scores needed-sets when the partials cover needed-sets and 2 needed-sets minus
partials otherwise. -/
def claimShantenFormula (p : List (List Nat)) (called : Nat) : Int :=
  let runs : Int := p.countP claimIsRun
  let triplets : Int := p.countP claimIsTriplet
  let pairs : Int := p.countP claimIsPair
  let partials : Int := p.countP claimIsPartial
  let needed : Int := 4 - called - runs - triplets
  if pairs > 0 then
    if partials + pairs - 1 ≥ needed then needed - 1
    else 2 * needed - (partials + pairs - 1) - 1
  else
    if partials ≥ needed then needed
    else 2 * needed - partials

namespace Partition

theorem tdist_spec (a b : Nat) :
    (a ≤ b ∧ tdist a b = b - a) ∨ (b ≤ a ∧ tdist a b = a - b) := by
  rcases Nat.le_total a b with h | h
  · exact Or.inl ⟨h, by simp [tdist, Nat.max_eq_right h, Nat.min_eq_left h]⟩
  · exact Or.inr ⟨h, by simp [tdist, Nat.max_eq_left h, Nat.min_eq_right h]⟩

theorem geoStep_effect (g0 : GeoVec) (m : List Nat) (hOK : GroupOK m) :
    (geoStep g0 m).g1 + (geoStep g0 m).g2
        = g0.g1 + g0.g2 + (if claimIsPartial m then 1 else 0) ∧
      (geoStep g0 m).g3 = g0.g3 + (if claimIsPair m then 1 else 0) ∧
      (geoStep g0 m).g4 = g0.g4 + (if claimIsRun m then 1 else 0) ∧
      (geoStep g0 m).g5 = g0.g5 + (if claimIsTriplet m then 1 else 0) := by
  rcases m with _ | ⟨a, _ | ⟨b, _ | ⟨c, _ | ⟨e, mt⟩⟩⟩⟩
  · simp [geoStep, claimIsPartial, claimIsPair, claimIsRun, claimIsTriplet]
  · simp [geoStep, claimIsPartial, claimIsPair, claimIsRun, claimIsTriplet]
  · have hOK2 : tdist a b ≤ 2 := hOK
    by_cases heq : a = b
    · subst heq
      simp [geoStep, nth, tdist, claimIsPartial, claimIsPair, claimIsRun, claimIsTriplet]
    · have hd0 : tdist a b ≠ 0 := by
        rcases tdist_spec a b with ⟨h, e⟩ | ⟨h, e⟩ <;> omega
      by_cases h1 : tdist a b = 1
      · simp only [geoStep, nth, List.getD_cons_zero, List.getD_cons_succ,
          List.length_cons, List.length_nil]
        norm_num [hd0, h1]
        split_ifs <;>
          simp_all [claimIsPartial, claimIsPair, claimIsRun, claimIsTriplet,
            bne_iff_ne, beq_iff_eq] <;> omega
      · have h2 : tdist a b = 2 := by omega
        simp only [geoStep, nth, List.getD_cons_zero, List.getD_cons_succ,
          List.length_cons, List.length_nil]
        norm_num [hd0, h1, h2]
        simp [claimIsPartial, claimIsPair, claimIsRun, claimIsTriplet,
          bne_iff_ne, beq_iff_eq, heq]
        omega
  · rcases hOK with ⟨rfl, rfl⟩ | ⟨rfl, rfl⟩
    · simp [geoStep, nth, tdist, claimIsPartial, claimIsPair, claimIsRun, claimIsTriplet]
    · have hne : ¬(a = a + 1) := by omega
      have hne2 : ¬(a + 1 = a) := by omega
      simp [geoStep, nth, tdist, claimIsPartial, claimIsPair, claimIsRun, claimIsTriplet,
        hne, hne2]
  · have l1 : (a :: b :: c :: e :: mt).length ≠ 1 := by simp
    have l2 : (a :: b :: c :: e :: mt).length ≠ 2 := by simp
    have l3 : (a :: b :: c :: e :: mt).length ≠ 3 := by simp
    simp [geoStep, l1, l2, l3, claimIsPartial, claimIsPair, claimIsRun, claimIsTriplet]

theorem geo_fold : ∀ (p : List (List Nat)) (g0 : GeoVec), (∀ g ∈ p, GroupOK g) →
    (p.foldl geoStep g0).g1 + (p.foldl geoStep g0).g2
        = g0.g1 + g0.g2 + p.countP claimIsPartial ∧
      (p.foldl geoStep g0).g3 = g0.g3 + p.countP claimIsPair ∧
      (p.foldl geoStep g0).g4 = g0.g4 + p.countP claimIsRun ∧
      (p.foldl geoStep g0).g5 = g0.g5 + p.countP claimIsTriplet := by
  intro p
  induction p with
  | nil => intro g0 _; simp
  | cons m p IH =>
    intro g0 hp
    have hOK := hp m (List.mem_cons_self _ _)
    have hptl : ∀ g ∈ p, GroupOK g := fun g hg => hp g (List.mem_cons_of_mem _ hg)
    obtain ⟨i12, i3, i4, i5⟩ := IH (geoStep g0 m) hptl
    obtain ⟨e12, e3, e4, e5⟩ := geoStep_effect g0 m hOK
    simp only [List.foldl_cons, List.countP_cons]
    refine ⟨?_, ?_, ?_, ?_⟩
    · rw [i12]; omega
    · rw [i3]; omega
    · rw [i4]; omega
    · rw [i5]; omega

theorem shantin_n_eq_claim (called : Nat) (p : List (List Nat))
    (hp : ∀ g ∈ p, GroupOK g) : shantin_n called p = claimShantenFormula p called := by
  obtain ⟨e12, e3, e4, e5⟩ := geo_fold p ⟨0, 0, 0, 0, 0, 0⟩ hp
  simp only [shantin_n, geo_vec_normal, claimShantenFormula]
  simp only [geo_vec_normal] at e12 e3 e4 e5
  split_ifs <;> omega

end Partition

/-- Claim C4: for every hand, shantin_normal returns the minimum, over all decompositions
produced by Partition.partition, of the claimed formula: with needed-sets equal to
4 minus the called-meld count minus runs minus triplets, a decomposition holding a pair
gives needed-sets minus 1 when reserve-partials (partials plus pairs minus the reserved
head pair) reach needed-sets and 2 needed-sets minus reserve-partials minus 1 otherwise,
and a pairless decomposition gives needed-sets when the partials cover needed-sets and
2 needed-sets minus partials otherwise. -/
theorem claim_C4 (tiles34 : List Nat) (called_melds : List (List Nat)) :
    Partition.shantin_normal tiles34 called_melds
      = listMinInt ((Partition.partition tiles34).map
          (fun p => claimShantenFormula p called_melds.length)) := by
  unfold Partition.shantin_normal Partition.shantin_normal_partitions
  congr 1
  apply List.map_congr_left
  intro p hp
  exact Partition.shantin_n_eq_claim _ p (Partition.partition_groupOK hp)

/-- Claim C2: every decomposition returned by Partition.partition, and by the single-suit
search Partition._partition_single_type, flattens to exactly the input tile multiset with
no tile added or dropped; all decompositions returned by one single-suit call are pairwise
distinct, appear among the branch results, and share one group count, namely the minimum
group count found among all branches; and for canonical tile values all decompositions of
one Partition.partition call share one group count as well. -/
theorem claim_C2 (tiles34 : List Nat) :
    (∀ d ∈ Partition.partition_single_type tiles34, d.flatten.Perm tiles34) ∧
    (∀ d ∈ Partition.partition_single_type tiles34,
        d ∈ Partition.partitionBranches tiles34 ∧
          d.length = listMinNat ((Partition.partitionBranches tiles34).map List.length)) ∧
    (Partition.partition_single_type tiles34).Nodup ∧
    ((∀ x ∈ tiles34, x ≤ 33) →
      (∀ d ∈ Partition.partition tiles34, d.flatten.Perm tiles34) ∧
      ∀ d1 ∈ Partition.partition tiles34, ∀ d2 ∈ Partition.partition tiles34,
        d1.length = d2.length) := by
  refine ⟨?_, ?_, Partition.pst_nodup tiles34, ?_⟩
  · intro d hd
    exact Partition.pst_flatten_perm hd
  · intro d hd
    exact Partition.pst_mem_branches hd
  · intro hb
    constructor
    · intro d hd
      exact Partition.partition_flatten_perm hb hd
    · intro d1 h1 d2 h2
      exact Partition.partition_length_const h1 h2

/-- Witness for claim C2 at a concrete hand. -/
theorem claim_C2_witness :
    (∀ x ∈ [0, 0, 0, 1, 2, 27, 27], x ≤ 33) ∧
      (∀ d ∈ Partition.partition [0, 0, 0, 1, 2, 27, 27],
        d.flatten.Perm [0, 0, 0, 1, 2, 27, 27]) :=
  ⟨by decide, ((claim_C2 [0, 0, 0, 1, 2, 27, 27]).2.2.2 (by decide)).1⟩

/-- Claim C8: shantin_seven_pairs returns the sentinel 10 whenever a meld has been called
and otherwise 6 minus the number of distinct tile values occurring at least twice. -/
theorem claim_C8 (tiles34 : List Nat) (called_melds : List (List Nat)) :
    Partition.shantin_seven_pairs tiles34 called_melds =
      if called_melds.length > 0 then 10
      else 6 - ((tiles34.toFinset.filter (fun t => 2 ≤ tiles34.count t)).card : Int) := by
  unfold Partition.shantin_seven_pairs
  split_ifs with h
  · rfl
  · have hset : tiles34.toFinset.filter (fun t => 2 ≤ tiles34.count t)
        = (tiles34.dedup.filter (fun t => tiles34.count t ≥ 2)).toFinset := by
      ext x
      simp only [Finset.mem_filter, List.mem_toFinset, List.mem_filter, List.mem_dedup,
        decide_eq_true_eq, ge_iff_le]
    have hlen : (tiles34.dedup.filter (fun t => tiles34.count t ≥ 2)).length
        = (tiles34.toFinset.filter (fun t => 2 ≤ tiles34.count t)).card := by
      rw [hset, List.card_toFinset,
        List.Nodup.dedup (List.Nodup.filter _ tiles34.nodup_dedup)]
    show 6 - ((tiles34.dedup.filter (fun t => tiles34.count t ≥ 2)).length : Int)
        = 6 - ((tiles34.toFinset.filter (fun t => 2 ≤ tiles34.count t)).card : Int)
    rw [hlen]

namespace WinWaitCal

/-- Python round-up expression ((x - 1) // 100 + 1) * 100 appearing inline in
score_calculation_base. -/
def ru100 (x : Int) : Int := (pydiv (x - 1) 100 + 1) * 100

/-- Source WinWaitCal.score_calculation_base, score component; the description string of
the returned pair repeats the numbers and is not modelled. -/
def score_calculation_base (han : Nat) (fu : Int) (is_dealer is_zimo : Bool) : Int :=
  if han = 0 then 0
  else if han < 5 then
    if (fu ≥ 40 ∧ han ≥ 4) ∨ (fu ≥ 70 ∧ han ≥ 3) then (if is_dealer then 12000 else 8000)
    else
      let base_score : Int := fu * 2 ^ (han + 2)
      if is_zimo then
        if is_dealer then
          let each := ru100 (base_score * 2)
          each * 3
        else
          let dscore := ru100 (base_score * 2)
          let xscore := ru100 base_score
          dscore + 2 * xscore
      else
        if is_dealer then ru100 (base_score * 6) else ru100 (base_score * 4)
  else if han = 5 then (if is_dealer then 12000 else 8000)
  else if 6 ≤ han ∧ han ≤ 7 then (if is_dealer then 18000 else 12000)
  else if 8 ≤ han ∧ han ≤ 10 then (if is_dealer then 24000 else 16000)
  else if 11 ≤ han ∧ han ≤ 12 then (if is_dealer then 36000 else 24000)
  else (if is_dealer then 48000 else 32000)

end WinWaitCal

/-- Round up to the next multiple of 100, written from the words of claim C7. -/
def roundUp100 (n : Int) : Int := pydiv (n + 99) 100 * 100

theorem ru100_eq_roundUp100 (x : Int) : WinWaitCal.ru100 x = roundUp100 x := by
  unfold WinWaitCal.ru100 roundUp100 pydiv
  rw [Int.fdiv_eq_ediv _ (by norm_num), Int.fdiv_eq_ediv _ (by norm_num)]
  have h : x + 99 = (x - 1) + 1 * 100 := by ring
  rw [h, Int.add_mul_ediv_right _ _ (by norm_num)]

/-- Claim C7: below the mangan cap, score_calculation_base pays the standard
rounded-up multiples of the base points fu times 2 to the power han plus 2. -/
theorem claim_C7 (han : Nat) (fu : Int) (is_dealer is_zimo : Bool)
    (h1 : 1 ≤ han) (h4 : han ≤ 4)
    (hc1 : ¬(fu ≥ 40 ∧ han ≥ 4)) (hc2 : ¬(fu ≥ 70 ∧ han ≥ 3)) :
    WinWaitCal.score_calculation_base han fu is_dealer is_zimo =
      (if is_zimo then
        (if is_dealer then 3 * roundUp100 (fu * 2 ^ (han + 2) * 2)
         else roundUp100 (fu * 2 ^ (han + 2) * 2) + 2 * roundUp100 (fu * 2 ^ (han + 2)))
       else
        (if is_dealer then roundUp100 (fu * 2 ^ (han + 2) * 6)
         else roundUp100 (fu * 2 ^ (han + 2) * 4))) := by
  unfold WinWaitCal.score_calculation_base
  rw [if_neg (by omega), if_pos (by omega), if_neg (by tauto)]
  simp only [ru100_eq_roundUp100]
  by_cases hz : is_zimo <;> by_cases hd : is_dealer <;> simp [hz, hd] <;> ring

/-- Witness for claim C7: three han and thirty fu for a non-dealer ron score exactly
3900 points. -/
theorem claim_C7_witness :
    (1 ≤ 3 ∧ 3 ≤ 4 ∧ ¬((30 : Int) ≥ 40 ∧ 3 ≥ 4) ∧ ¬((30 : Int) ≥ 70 ∧ 3 ≥ 3)) ∧
      WinWaitCal.score_calculation_base 3 30 false false = 3900 := by
  refine ⟨by norm_num, ?_⟩
  rw [claim_C7 3 30 false false (by norm_num) (by norm_num) (by norm_num) (by norm_num)]
  decide

namespace WinWaitCal

/-- Enumeration of the fu award categories of fu_calculation, one constructor for each
distinct description string the source uses as dictionary key. -/
inductive FuCat
  | chiitoi25
  | pinfuTsumo20
  | pinfuRon30
  | yaoAnko
  | yaoMinko
  | chuAnko
  | chuMinko
  | yaoMinkan
  | chuMinkan
  | yaoAnkan
  | chuAnkan
  | sangenPair
  | selfWindPair
  | roundWindPair
  | tanki
  | edgeWait
  | zimoFu
  | menqingRon
deriving DecidableEq, Repr

/-- Sequence of add_base writes of check_kezi over the hand partition, in source order. -/
def keziWritesHand (hand_partition : List (List Nat)) (final_tile : Nat)
    (is_zimo : Bool) : List (FuCat × Nat) :=
  (hand_partition.map (fun meld =>
    if meld.length = 3 then
      if nth meld 0 = nth meld 1 ∧ nth meld 1 = nth meld 2 then
        if nth meld 0 ∈ Tile.ONENINE then
          if is_zimo ∨ final_tile ≠ nth meld 0 then [(FuCat.yaoAnko, 8)]
          else [(FuCat.yaoMinko, 4)]
        else
          if is_zimo ∨ final_tile ≠ nth meld 0 then [(FuCat.chuAnko, 4)]
          else [(FuCat.chuMinko, 2)]
      else []
    else [])).flatten

/-- Sequence of add_base writes of check_kezi over the called melds. -/
def keziWritesMelds (melds : List (List Nat)) : List (FuCat × Nat) :=
  (melds.map (fun meld =>
    if nth meld 0 = nth meld 1 then
      if nth meld 0 ∈ Tile.ONENINE then [(FuCat.yaoMinko, 4)] else [(FuCat.chuMinko, 2)]
    else [])).flatten

/-- Sequence of add_base writes of check_kans. -/
def kanWrites (minkan ankan : List (List Nat)) : List (FuCat × Nat) :=
  (minkan.map (fun mk =>
    if nth mk 0 ∈ Tile.ONENINE then [(FuCat.yaoMinkan, 16)]
    else [(FuCat.chuMinkan, 8)])).flatten
  ++ (ankan.map (fun ak =>
    if nth ak 0 ∈ Tile.ONENINE then [(FuCat.yaoAnkan, 32)]
    else [(FuCat.chuAnkan, 16)])).flatten

/-- Sequence of add_base writes of check_pair. -/
def pairWrites (p : List Nat) (player_wind round_wind : Nat) : List (FuCat × Nat) :=
  (if nth p 0 ∈ Tile.THREES then [(FuCat.sangenPair, 2)] else [])
  ++ (if nth p 0 = player_wind then [(FuCat.selfWindPair, 2)] else [])
  ++ (if nth p 0 = round_wind then [(FuCat.roundWindPair, 2)] else [])

/-- Sequence of add_base writes of check_waiting_type. -/
def waitWrites (hand_partition melds : List (List Nat)) (p : List Nat)
    (final_tile : Nat) : List (FuCat × Nat) :=
  let chws := (hand_partition ++ melds).filter (fun m => nth m 0 ≠ nth m 1)
  let chws_with_final := chws.filter (fun chw => final_tile ∈ chw)
  if nth p 0 = final_tile ∧ chws_with_final.length = 0 then [(FuCat.tanki, 2)]
  else if chws_with_final.length > 0 then
    if chws_with_final.all (fun chw => nth chw 1 = final_tile ∨
        (nth chw 0 = final_tile ∧ nth chw 2 % 9 = 8) ∨
        (nth chw 2 = final_tile ∧ nth chw 0 % 9 = 0)) then [(FuCat.edgeWait, 2)]
    else []
  else []

/-- Sequence of add_base writes of check_win_type. -/
def winWrites (melds minkan : List (List Nat)) (is_zimo : Bool) : List (FuCat × Nat) :=
  (if is_zimo then [(FuCat.zimoFu, 2)] else [])
  ++ (if ¬is_zimo ∧ (melds ++ minkan).length = 0 then [(FuCat.menqingRon, 10)] else [])

/-- Full sequence of add_base writes of the itemized part of fu_calculation, in the order
of the five check calls of the source; the pair is the first length-2 group of the hand
partition, as in the source subscription. -/
def fuWrites (hand_partition : List (List Nat)) (final_tile : Nat)
    (melds minkan ankan : List (List Nat)) (is_zimo : Bool)
    (player_wind round_wind : Nat) : List (FuCat × Nat) :=
  let pair := (hand_partition.filter (fun m => m.length = 2)).headD []
  keziWritesHand hand_partition final_tile is_zimo
  ++ keziWritesMelds melds
  ++ kanWrites minkan ankan
  ++ pairWrites pair player_wind round_wind
  ++ waitWrites hand_partition melds pair final_tile
  ++ winWrites melds minkan is_zimo

/-- Association list state of the fu dictionary after the itemized add_base writes have
been performed in source order with Python dictionary update semantics. -/
def fuDict (hand_partition : List (List Nat)) (final_tile : Nat)
    (melds minkan ankan : List (List Nat)) (is_zimo : Bool)
    (player_wind round_wind : Nat) : List (FuCat × Nat) :=
  (fuWrites hand_partition final_tile melds minkan ankan is_zimo player_wind
    round_wind).foldl (fun d e => dinsert d e.1 e.2) []

/-- Result record of fu_calculation; fu_desc carries no information beyond the keys of fu
and is not modelled. -/
structure FuRes where
  fu : List (FuCat × Nat)
  fu_sum : Nat
  fu_round : Int
deriving DecidableEq, Repr

/-- Source WinWaitCal.fu_calculation.  The fu dictionary is the association list obtained
by performing the add_base writes in source order with Python dictionary update semantics;
the early returns for seven pairs and the two flat pinfu-shape cases come first, exactly as
in the source, and fall through to the itemized computation when their inner conditions
fail. -/
def fu_calculation (hand_partition : List (List Nat)) (final_tile : Nat)
    (melds minkan ankan : List (List Nat)) (is_zimo : Bool)
    (player_wind round_wind : Nat) : FuRes :=
  if hand_partition.length = 7 then ⟨[(FuCat.chiitoi25, 25)], 25, 25⟩
  else
    let flat : Option FuRes :=
      if hand_partition.length + melds.length = 5 then
        let chows := (hand_partition ++ melds).filter (fun m => nth m 0 ≠ nth m 1)
        let pair := (hand_partition.filter (fun m => m.length = 2)).headD []
        if chows.length = 4 ∧ nth pair 0 ∉ Tile.THREES ++ [player_wind, round_wind] then
          if chows.filter (fun chw => final_tile ∈ chw) |>.any (fun chw =>
              (nth chw 0 = final_tile ∧ nth chw 0 % 9 ≠ 6) ∨
              (nth chw 2 = final_tile ∧ nth chw 2 % 9 ≠ 2)) then
            if is_zimo ∧ melds.length = 0 then some ⟨[(FuCat.pinfuTsumo20, 20)], 20, 20⟩
            else if ¬is_zimo ∧ melds.length > 0 then some ⟨[(FuCat.pinfuRon30, 30)], 30, 30⟩
            else none
          else none
        else none
      else none
    match flat with
    | some r => r
    | none =>
      let fu := fuDict hand_partition final_tile melds minkan ankan is_zimo
        player_wind round_wind
      let s := sumVals fu
      ⟨fu, s, (pydiv ((s : Int) - 1) 10 + 1) * 10⟩

end WinWaitCal

namespace WinWaitCal

/-- Enumeration of the yaku of han_calculation, one constructor for each distinct
description string used as dictionary key; patterns whose han value depends on the hand
being closed have one constructor per value because the source key string contains the
value. -/
inductive Yaku
  | chiitoi
  | riichi
  | tsumo
  | yakuhai
  | jikaze
  | bakaze
  | tanyao
  | sanshokuDoujun2
  | sanshokuDoujun1
  | pinfu
  | ittsuu2
  | ittsuu1
  | toitoi
  | shousangen
  | honroutou
  | junchan3
  | junchan2
  | chanta2
  | chanta1
  | sanshokuDoukou
  | sankantsu
  | ryanpeikou
  | iipeikou
  | chinitsu6
  | chinitsu5
  | honitsu3
  | honitsu2
  | sanankou
deriving DecidableEq, Repr

/-- Enumeration of the yakuman of han_calculation. -/
inductive Ykman
  | kokushi
  | daisangen
  | chinroutou
  | ryuuiisou
  | suuankou
  | daisuushii
  | shousuushii
  | tsuuiisou
  | chuuren
deriving DecidableEq, Repr

/-- Result record of han_calculation; han_desc repeats the keys of the chosen dictionary
and is not modelled. -/
structure HanRes where
  han : List (Yaku × Nat)
  ykman : List (Ykman × Nat)
  han_sum : Nat
  yk_sum : Nat
deriving DecidableEq, Repr

/-- Python expression t if t < 4 else 3 used on the tile-count metrics of check_threes and
check_four_honors. -/
def capMetric (t : Nat) : Nat := if t < 4 then t else 3

/-- Source WinWaitCal.han_calculation.  Every check function of the source is inlined in
the order of the check calls, each writing into the han or ykman dictionary with the Python
update semantics of dinsert. -/
def han_calculation (hand_partition : List (List Nat)) (final_tile : Nat)
    (melds minkan ankan : List (List Nat)) (is_zimo : Bool)
    (player_wind round_wind : Nat) (reach : Bool) : HanRes :=
  let all_melds := hand_partition ++ melds ++ minkan ++ ankan
  let all_melds_no_kan := hand_partition ++ melds
  let all_tiles := all_melds.flatten
  let is_menqing := (melds ++ minkan).length = 0
  let len_open := (melds ++ minkan ++ ankan).length
  let len_total := len_open + hand_partition.length
  let han : List (Yaku × Nat) := []
  let ykman : List (Ykman × Nat) := []
  -- check_all_single_one_nine
  let ykman := if hand_partition.length = 13 then dinsert ykman Ykman.kokushi 1 else ykman
  -- check_seven_pairs
  let han := if hand_partition.length = 7 then dinsert han Yaku.chiitoi 2 else han
  -- check_win_type
  let han := if reach then dinsert han Yaku.riichi 1 else han
  let han := if is_zimo ∧ is_menqing then dinsert han Yaku.tsumo 1 else han
  -- check_dori
  let han := all_melds.foldl (fun h meld =>
    if meld.length > 2 ∧ nth meld 0 = nth meld 1 then
      let h := if nth meld 0 ∈ Tile.THREES then dinsert h Yaku.yakuhai 1 else h
      let h := if nth meld 0 = player_wind then dinsert h Yaku.jikaze 1 else h
      if nth meld 0 = round_wind then dinsert h Yaku.bakaze 1 else h
    else h) han
  -- check_no19
  let han := if Tile.ONENINE.all (fun t => t ∉ all_tiles) then dinsert han Yaku.tanyao 1
    else han
  -- check_flat_win
  let han :=
    if is_menqing ∧ hand_partition.length = 5 then
      let chows := hand_partition.filter (fun meld =>
        meld.length = 3 ∧ nth meld 0 ≠ nth meld 1)
      let pair := (hand_partition.filter (fun meld => meld.length = 2)).headD []
      if chows.length = 4 ∧ nth pair 0 ∉ Tile.THREES ++ [player_wind, round_wind] then
        if chows.filter (fun chw => final_tile ∈ chw) |>.any (fun chw =>
            (nth chw 0 = final_tile ∧ nth chw 0 % 9 ≠ 6) ∨
            (nth chw 2 = final_tile ∧ nth chw 2 % 9 ≠ 2)) then
          dinsert han Yaku.pinfu 1
        else han
      else han
    else han
  -- check_1to9
  let han :=
    if len_total = 5 ∧ [0, 9, 18].any (fun i => [0, 3, 6].all (fun s =>
        [s + i, s + i + 1, s + i + 2] ∈ all_melds_no_kan)) then
      (if is_menqing then dinsert han Yaku.ittsuu2 2 else dinsert han Yaku.ittsuu1 1)
    else han
  -- check_all_pons
  let han :=
    if len_total = 5 ∧
        (all_melds_no_kan.filter (fun meld => nth meld 0 ≠ nth meld 1)).length = 0 then
      dinsert han Yaku.toitoi 2
    else han
  -- check_threes
  let threeMetrics := Tile.THREES.map (fun t => capMetric (all_tiles.count t))
  let ykman := if len_total = 5 ∧ threeMetrics.count 3 = 3 then
      dinsert ykman Ykman.daisangen 1
    else ykman
  let han := if len_total = 5 ∧ threeMetrics.count 3 = 2 ∧ threeMetrics.count 2 = 1 then
      dinsert han Yaku.shousangen 2
    else han
  -- check_all19
  let all_19pons := len_total = (all_melds.filter (fun m =>
    m.length > 1 ∧ nth m 0 = nth m 1 ∧ nth m 0 ∈ Tile.ONENINE)).length
  let pure_all_19 := len_total = 5 ∧
    (all_melds.filter (fun m => m.any (fun t => t ∈ Tile.TERMINALS))).length = 5
  let ykman := if all_19pons ∧ pure_all_19 then dinsert ykman Ykman.chinroutou 1 else ykman
  let han :=
    if all_19pons ∧ pure_all_19 then han
    else if all_19pons then dinsert han Yaku.honroutou 2
    else if pure_all_19 then
      (if is_menqing then dinsert han Yaku.junchan3 3 else dinsert han Yaku.junchan2 2)
    else if (len_total = 5 ∨ len_total = 7) ∧
        (all_melds.filter (fun m => m.any (fun t => t ∈ Tile.ONENINE))).length = len_total
    then (if is_menqing then dinsert han Yaku.chanta2 2 else dinsert han Yaku.chanta1 1)
    else han
  -- check_3pons_same_color
  let han :=
    if len_total = 5 ∧ (List.range 9).any (fun i => [0, 9, 18].all (fun n =>
        List.replicate 3 (n + i) ∈ all_melds ∨ List.replicate 4 (n + i) ∈ all_melds)) then
      dinsert han Yaku.sanshokuDoukou 2
    else han
  -- check_3chows_same_color
  let han :=
    if len_total = 5 then
      let chows := all_melds_no_kan.filter (fun meld =>
        meld.length = 3 ∧ nth meld 0 ≠ nth meld 1)
      if chows.length > 2 ∧ (List.range 7).any (fun i => [0, 9, 18].all (fun t =>
          [i + t, i + t + 1, i + t + 2] ∈ chows)) then
        (if is_menqing then dinsert han Yaku.sanshokuDoujun2 2
         else dinsert han Yaku.sanshokuDoujun1 1)
      else han
    else han
  -- check_3kans
  let han := if len_total = 5 ∧ (ankan ++ minkan).length = 3 then
      dinsert han Yaku.sankantsu 2
    else han
  -- check_multiple_same_chow
  let was_erbeikou := is_menqing ∧ hand_partition.length = 5 ∧
    all_tiles.dedup.all (fun t => all_tiles.count t = 2)
  let han := if was_erbeikou then dinsert han Yaku.ryanpeikou 3 else han
  let han :=
    if ¬was_erbeikou ∧ is_menqing ∧ (hand_partition ++ ankan).length ≠ 0 then
      let chows := hand_partition.filter (fun m => m.length > 1 ∧ nth m 0 ≠ nth m 1)
      if chows.any (fun chw => chows.count chw ≥ 2) then dinsert han Yaku.iipeikou 1
      else han
    else han
  -- check_pure_color
  let han :=
    if [0, 9, 18].any (fun typ => all_tiles.all (fun t => typ ≤ t ∧ t < typ + 9)) then
      (if is_menqing then dinsert han Yaku.chinitsu6 6 else dinsert han Yaku.chinitsu5 5)
    else if [0, 9, 18].any (fun typ => all_tiles.all (fun t =>
        (typ ≤ t ∧ t < typ + 9) ∨ (27 ≤ t ∧ t < 34))) then
      (if is_menqing then dinsert han Yaku.honitsu3 3 else dinsert han Yaku.honitsu2 2)
    else han
  -- check_pure_green
  let ykman := if all_tiles.all (fun t => t ∈ Tile.GREENS) then
      dinsert ykman Ykman.ryuuiisou 1
    else ykman
  -- check_4ankans
  let kezi1 := ankan.length +
    (hand_partition.filter (fun m => m.length = 3 ∧ nth m 0 = nth m 1)).length
  let pair4 := (hand_partition.filter (fun m => m.length = 2)).headD []
  let ykman := if len_total = 5 ∧ kezi1 = 4 ∧ (is_zimo ∨ final_tile = nth pair4 0) then
      dinsert ykman Ykman.suuankou 1
    else ykman
  let han :=
    if len_total = 5 then
      if kezi1 = 4 then
        (if is_zimo ∨ final_tile = nth pair4 0 then han else dinsert han Yaku.sanankou 2)
      else
        let kezi2 := ankan.length + (hand_partition.filter (fun m =>
          m.length = 3 ∧ nth m 0 = nth m 1 ∧ (is_zimo ∨ final_tile ≠ nth m 0))).length
        if kezi2 = 3 then dinsert han Yaku.sanankou 2 else han
    else han
  -- check_four_honors
  let windMetrics := Tile.WINDS.map (fun t => capMetric (all_tiles.count t))
  let ykman :=
    if windMetrics.count 3 = 4 then dinsert ykman Ykman.daisuushii 1
    else if windMetrics.count 3 = 3 ∧ windMetrics.count 2 = 1 then
      dinsert ykman Ykman.shousuushii 1
    else ykman
  -- check_all_characters
  let ykman := if all_tiles.all (fun t => t ∈ Tile.HONORS) then
      dinsert ykman Ykman.tsuuiisou 1
    else ykman
  -- check_9lotus
  let ykman :=
    if is_menqing ∧ [0, 9, 18].any (fun i =>
        (all_tiles.all (fun t => i ≤ t ∧ t < i + 9)) ∧
        ((List.range 9).all (fun k => (i + k) ∈ all_tiles)) ∧
        all_tiles.count i > 2 ∧ all_tiles.count (i + 8) > 2) then
      dinsert ykman Ykman.chuuren 1
    else ykman
  ⟨han, ykman, sumVals han, sumVals ykman⟩

end WinWaitCal

namespace WinWaitCal

/-- Fuel-indexed form of the recursion of parse_nums inside win_parse; every recursive call
is on a strictly shorter list, so fuel equal to the list length always suffices. -/
def parseNumsF : Nat → List Nat → Option (List (List (List Nat)))
  | _, [] => some [[[]]]
  | _, [_] => none
  | _, [a, b] => if a = b then some [[[a, b]]] else none
  | _, [a, b, c] =>
      if (a = b ∧ b = c) ∨ (a + 2 = b + 1 ∧ b + 1 = c) then some [[[a, b, c]]] else none
  | fuel + 1, t0 :: t1 :: t2 :: t3 :: rest =>
      let tiles := t0 :: t1 :: t2 :: t3 :: rest
      if tiles.length % 3 = 1 then none
      else
        let res1 :=
          if tiles.length % 3 = 2 ∧ t0 = t1 then
            match parseNumsF fuel (t2 :: t3 :: rest) with
            | some rec_res => rec_res.map (fun part => [t0, t1] :: part)
            | none => []
          else []
        let res2 :=
          if t0 = t1 ∧ t1 = t2 then
            match parseNumsF fuel (t3 :: rest) with
            | some rec_res => rec_res.map (fun part => [t0, t1, t2] :: part)
            | none => []
          else []
        let res3 :=
          if (t0 + 1) ∈ tiles ∧ (t0 + 2) ∈ tiles then
            match parseNumsF fuel
                (((t1 :: t2 :: t3 :: rest).erase (t0 + 1)).erase (t0 + 2)) with
            | some rec_res => rec_res.map (fun part => [t0, t0 + 1, t0 + 2] :: part)
            | none => []
          else []
        let res := res1 ++ res2 ++ res3
        if res.length > 0 then some res else none
  | 0, _ => none

/-- Source parse_nums inside WinWaitCal.win_parse. -/
def parse_nums (tiles : List Nat) : Option (List (List (List Nat))) :=
  parseNumsF tiles.length tiles

/-- Source parse_chrs inside WinWaitCal.win_parse.  The source wraps the unique honor
partition in a one-element list solely to subscript it as chr_parse[0]; the partition is
returned directly here, with the empty input giving the empty partition. -/
def parse_chrs (tiles : List Nat) : Option (List (List Nat)) :=
  if tiles.length = 0 then some []
  else if tiles.length % 3 = 1 ∨ tiles.any (fun t => tiles.count t = 1) then none
  else
    let part := tiles.dedup.map (fun t => List.replicate (tiles.count t) t)
    if part.length = (tiles.length - 1) / 3 + 1 then some part else none

/-- Source WinWaitCal.win_parse. -/
def win_parse (hand34 : List Nat) (final_tile : Nat) : List (List (List Nat)) :=
  let hand_total := hand34 ++ [final_tile]
  let hand_total_set := hand_total.dedup
  let res0 : List (List (List Nat)) :=
    if hand_total_set.all (fun t => hand_total.count t = 2) ∧ hand_total.length = 14 then
      [hand_total_set.map (fun t => [t, t])]
    else []
  if Tile.ONENINE.all (fun t => t ∈ hand_total) ∧
      hand_total.all (fun t => t ∈ Tile.ONENINE) then
    [Tile.ONENINE.map (fun t => List.replicate (hand_total.count t) t)]
  else
    let sorted := sortTiles hand_total
    let hand_man := sorted.filter (fun t => t < 9)
    let hand_pin := sorted.filter (fun t => 9 ≤ t ∧ t < 18)
    let hand_suo := sorted.filter (fun t => 18 ≤ t ∧ t < 27)
    let hand_chr := sorted.filter (fun t => 27 ≤ t)
    let man_parse := parse_nums hand_man
    let pin_parse := parse_nums hand_pin
    let suo_parse := parse_nums hand_suo
    let chr_parse := parse_chrs hand_chr
    if hand_man ≠ [] ∧ man_parse = none then res0
    else if hand_pin ≠ [] ∧ pin_parse = none then res0
    else if hand_suo ≠ [] ∧ suo_parse = none then res0
    else if hand_chr ≠ [] ∧ chr_parse = none then res0
    else
      let a_l := man_parse.getD [[[]]]
      let b_l := pin_parse.getD [[[]]]
      let c_l := suo_parse.getD [[[]]]
      let pc := chr_parse.getD []
      res0 ++ ((a_l.map (fun a => ((b_l.map (fun b => (c_l.map (fun c =>
        ((a ++ b ++ c ++ pc).filter (fun m => m.length > 0)))))).flatten))).flatten)

/-- Key type of the han mapping in a score result: a yaku key, a yakuman key, or the
bonus-tile key whose description string embeds the bonus count. -/
inductive HKey
  | y : Yaku → HKey
  | m : Ykman → HKey
  | dora : Nat → HKey
deriving DecidableEq, Repr

/-- Result record of score_calculation; the two description strings repeat the other
fields and are not modelled. -/
structure ScoreRes where
  score : Int
  han : List (HKey × Nat)
  fu : Option (List (FuCat × Nat))
  partition : List (List Nat)
deriving DecidableEq, Repr

/-- Candidate result that the loop body of score_calculation computes for one
decomposition p: none when the decomposition is skipped for zero han and zero yakuman,
otherwise the score, han mapping, fu mapping and decomposition the loop would record. -/
def candidate (p : List (List Nat)) (final_tile : Nat)
    (melds minkan ankan : List (List Nat)) (is_zimo : Bool)
    (player_wind round_wind : Nat) (reach : Bool) (bonus : Nat)
    (benchan reach_stick : Nat) (is_dealer : Bool) : Option ScoreRes :=
  let han_dict := han_calculation p final_tile melds minkan ankan is_zimo player_wind
    round_wind reach
  if han_dict.han_sum = 0 ∧ han_dict.yk_sum = 0 then none
  else if han_dict.yk_sum > 0 then
    let base_maxi : Int := if is_dealer then 48000 else 32000
    some ⟨base_maxi * (han_dict.yk_sum : Int) + 1000 * (reach_stick : Int) +
        (benchan : Int) * 300,
      han_dict.ykman.map (fun e => (HKey.m e.1, e.2)), none, p⟩
  else
    let fu_dict := fu_calculation p final_tile melds minkan ankan is_zimo player_wind
      round_wind
    let fu := fu_dict.fu_round
    let base_point := score_calculation_base (han_dict.han_sum + bonus) fu is_dealer
      is_zimo
    let final_score := base_point + 1000 * (reach_stick : Int) +
      (benchan : Int) * (if base_point > 0 then 300 else 0)
    some ⟨final_score,
      han_dict.han.map (fun e => (HKey.y e.1, e.2)) ++
        (if bonus > 0 then [(HKey.dora bonus, bonus)] else []),
      some fu_dict.fu, p⟩

/-- Source WinWaitCal.score_calculation: the bonus-tile increment for a winning bonus
tile, then the maximum-score fold over all win_parse decompositions, returning none when
no decomposition was recorded. -/
def score_calculation (hand34 : List Nat) (final_tile : Nat)
    (melds minkan ankan : List (List Nat)) (is_zimo : Bool)
    (player_wind round_wind : Nat) (reach : Bool) (bonus_num : Nat)
    (bonus_tiles : List Nat) (benchan reach_stick : Nat) (is_dealer : Bool) :
    Option ScoreRes :=
  let win_partitions := win_parse hand34 final_tile
  if win_partitions.length = 0 then none
  else
    let bonus := bonus_num + (if final_tile ∈ bonus_tiles then 1 else 0)
    let best := win_partitions.foldl (fun b p =>
      match candidate p final_tile melds minkan ankan is_zimo player_wind round_wind
          reach bonus benchan reach_stick is_dealer with
      | none => b
      | some c => if c.score > b.1 then (c.score, some c) else b)
      ((0 : Int), (none : Option ScoreRes))
    if best.1 = 0 then none else best.2

end WinWaitCal

/-- Claim C10: score_calculation uses exactly one extra bonus han when the winning tile is
itself a bonus tile, and exactly bonus_num otherwise: the call behaves identically to a
call with the incremented bonus count and no bonus-tile list. -/
theorem claim_C10 (hand34 : List Nat) (final_tile : Nat)
    (melds minkan ankan : List (List Nat)) (is_zimo : Bool)
    (player_wind round_wind : Nat) (reach : Bool) (bonus_num : Nat)
    (bonus_tiles : List Nat) (benchan reach_stick : Nat) (is_dealer : Bool) :
    WinWaitCal.score_calculation hand34 final_tile melds minkan ankan is_zimo player_wind
        round_wind reach bonus_num bonus_tiles benchan reach_stick is_dealer =
      WinWaitCal.score_calculation hand34 final_tile melds minkan ankan is_zimo player_wind
        round_wind reach (bonus_num + (if final_tile ∈ bonus_tiles then 1 else 0)) []
        benchan reach_stick is_dealer := by
  unfold WinWaitCal.score_calculation
  simp

/-- Claim C5: a decomposition with positive yakuman sum is scored from the yakuman table
alone: the candidate score is 48000 for a dealer and 32000 otherwise times the yakuman sum
plus 1000 per riichi stick plus 300 per benchan counter, its han mapping is the yakuman
mapping, and its fu breakdown is absent. -/
theorem claim_C5 (p : List (List Nat)) (final_tile : Nat)
    (melds minkan ankan : List (List Nat)) (is_zimo : Bool)
    (player_wind round_wind : Nat) (reach : Bool) (bonus : Nat)
    (benchan reach_stick : Nat) (is_dealer : Bool)
    (hyk : 0 < (WinWaitCal.han_calculation p final_tile melds minkan ankan is_zimo
      player_wind round_wind reach).yk_sum) :
    WinWaitCal.candidate p final_tile melds minkan ankan is_zimo player_wind round_wind
        reach bonus benchan reach_stick is_dealer =
      some ⟨(if is_dealer then 48000 else 32000) *
          ((WinWaitCal.han_calculation p final_tile melds minkan ankan is_zimo player_wind
            round_wind reach).yk_sum : Int) +
          1000 * (reach_stick : Int) + 300 * (benchan : Int),
        (WinWaitCal.han_calculation p final_tile melds minkan ankan is_zimo player_wind
          round_wind reach).ykman.map (fun e => (WinWaitCal.HKey.m e.1, e.2)),
        none, p⟩ := by
  unfold WinWaitCal.candidate
  rw [if_neg (by omega), if_pos hyk]
  have h : (benchan : Int) * 300 = 300 * (benchan : Int) := by ring
  rw [h]

/-- Witness for claim C5 at a concrete all-honor decomposition. -/
theorem claim_C5_witness :
    0 < (WinWaitCal.han_calculation [[27, 27, 27]] 27 [] [] [] false 27 27 false).yk_sum ∧
      WinWaitCal.candidate [[27, 27, 27]] 27 [] [] [] false 27 27 false 0 2 3 true =
        some ⟨(if true then 48000 else 32000) *
            ((WinWaitCal.han_calculation [[27, 27, 27]] 27 [] [] [] false 27 27
              false).yk_sum : Int) + 1000 * ((3 : Nat) : Int) + 300 * ((2 : Nat) : Int),
          (WinWaitCal.han_calculation [[27, 27, 27]] 27 [] [] [] false 27 27
            false).ykman.map (fun e => (WinWaitCal.HKey.m e.1, e.2)),
          none, [[27, 27, 27]]⟩ :=
  ⟨by decide, claim_C5 [[27, 27, 27]] 27 [] [] [] false 27 27 false 0 2 3 true (by decide)⟩

/-- Claim C3 counterexample: a hand on which win_parse returns one decomposition that is
not skipped (its han sum is 1, from riichi) and yet score_calculation returns none,
because the decomposition collects no fu entry at all, its rounded fu is 0 and its
computed score is 0. -/
theorem claim_C3_counterexample :
    WinWaitCal.score_calculation [0, 0, 9, 9, 18, 18, 20, 21, 27, 27] 22 [[15, 16, 17]]
        [] [] false 28 28 true 0 [] 0 0 false = none ∧
      WinWaitCal.win_parse [0, 0, 9, 9, 18, 18, 20, 21, 27, 27] 22 =
        [[[0, 0], [9, 9], [18, 18], [20, 21, 22], [27, 27]]] ∧
      (WinWaitCal.han_calculation [[0, 0], [9, 9], [18, 18], [20, 21, 22], [27, 27]] 22
        [[15, 16, 17]] [] [] false 28 28 true).han_sum = 1 := by
  decide

namespace WinWaitCal

theorem ru100_nonneg {x : Int} (hx : 0 ≤ x) : 0 ≤ ru100 x := by
  unfold ru100 pydiv
  rcases eq_or_lt_of_le hx with h | h
  · rw [← h]; decide
  · have h1 : (0 : Int) ≤ x - 1 := by omega
    have h2 := Int.fdiv_nonneg h1 (by norm_num : (0 : Int) ≤ 100)
    have h3 : (0 : Int) ≤ (x - 1).fdiv 100 + 1 := by omega
    exact mul_nonneg h3 (by norm_num)

theorem ru10_nonneg {x : Int} (hx : 0 ≤ x) : 0 ≤ (pydiv (x - 1) 10 + 1) * 10 := by
  unfold pydiv
  rcases eq_or_lt_of_le hx with h | h
  · rw [← h]; decide
  · have h1 : (0 : Int) ≤ x - 1 := by omega
    have h2 := Int.fdiv_nonneg h1 (by norm_num : (0 : Int) ≤ 10)
    have h3 : (0 : Int) ≤ (x - 1).fdiv 10 + 1 := by omega
    exact mul_nonneg h3 (by norm_num)

theorem score_calculation_base_nonneg (han : Nat) (fu : Int) (is_dealer is_zimo : Bool)
    (hfu : 0 ≤ fu) : 0 ≤ score_calculation_base han fu is_dealer is_zimo := by
  have hbase : (0 : Int) ≤ fu * 2 ^ (han + 2) :=
    mul_nonneg hfu (by positivity)
  have r1 := ru100_nonneg (mul_nonneg hbase (by norm_num : (0 : Int) ≤ 2))
  have r2 := ru100_nonneg hbase
  have r4 := ru100_nonneg (mul_nonneg hbase (by norm_num : (0 : Int) ≤ 4))
  have r6 := ru100_nonneg (mul_nonneg hbase (by norm_num : (0 : Int) ≤ 6))
  simp only [score_calculation_base]
  split_ifs <;> omega

theorem fu_round_nonneg (hand_partition : List (List Nat)) (final_tile : Nat)
    (melds minkan ankan : List (List Nat)) (is_zimo : Bool)
    (player_wind round_wind : Nat) :
    0 ≤ (fu_calculation hand_partition final_tile melds minkan ankan is_zimo player_wind
      round_wind).fu_round := by
  simp only [fu_calculation]
  split
  · norm_num
  · split
    · rename_i r heq
      split_ifs at heq
      all_goals simp only [Option.some_inj] at heq
      all_goals rw [← heq]
      all_goals decide
    · exact ru10_nonneg (by positivity)

theorem candidate_score_nonneg {p : List (List Nat)} {final_tile : Nat}
    {melds minkan ankan : List (List Nat)} {is_zimo : Bool}
    {player_wind round_wind : Nat} {reach : Bool} {bonus : Nat}
    {benchan reach_stick : Nat} {is_dealer : Bool} {c : ScoreRes}
    (hc : candidate p final_tile melds minkan ankan is_zimo player_wind round_wind reach
      bonus benchan reach_stick is_dealer = some c) : 0 ≤ c.score := by
  by_cases h1 : ((han_calculation p final_tile melds minkan ankan is_zimo player_wind
      round_wind reach).han_sum = 0 ∧
      (han_calculation p final_tile melds minkan ankan is_zimo player_wind round_wind
        reach).yk_sum = 0)
  · unfold candidate at hc
    rw [if_pos h1] at hc
    exact absurd hc (by simp)
  · by_cases h2 : ((han_calculation p final_tile melds minkan ankan is_zimo player_wind
        round_wind reach).yk_sum > 0)
    · unfold candidate at hc
      rw [if_neg h1, if_pos h2] at hc
      rw [Option.some_inj] at hc
      subst hc
      have hm : (0 : Int) ≤ (if is_dealer then (48000 : Int) else 32000) := by
        split_ifs <;> norm_num
      have hprod : (0 : Int) ≤ (if is_dealer then (48000 : Int) else 32000) *
          ((han_calculation p final_tile melds minkan ankan is_zimo player_wind
            round_wind reach).yk_sum : Int) := mul_nonneg hm (by positivity)
      have hr : (0 : Int) ≤ (reach_stick : Int) := by positivity
      have hb : (0 : Int) ≤ (benchan : Int) := by positivity
      show (0 : Int) ≤ (if is_dealer then (48000 : Int) else 32000) *
          ((han_calculation p final_tile melds minkan ankan is_zimo player_wind
            round_wind reach).yk_sum : Int) + 1000 * (reach_stick : Int) +
          (benchan : Int) * 300
      omega
    · unfold candidate at hc
      rw [if_neg h1, if_neg h2] at hc
      rw [Option.some_inj] at hc
      subst hc
      have hbase := score_calculation_base_nonneg
        ((han_calculation p final_tile melds minkan ankan is_zimo player_wind round_wind
          reach).han_sum + bonus)
        ((fu_calculation p final_tile melds minkan ankan is_zimo player_wind
          round_wind).fu_round) is_dealer is_zimo
        (fu_round_nonneg p final_tile melds minkan ankan is_zimo player_wind round_wind)
      have hr : (0 : Int) ≤ (reach_stick : Int) := by positivity
      have hb : (0 : Int) ≤ (benchan : Int) := by positivity
      have hite : (0 : Int) ≤ (if score_calculation_base
          ((han_calculation p final_tile melds minkan ankan is_zimo player_wind round_wind
            reach).han_sum + bonus)
          ((fu_calculation p final_tile melds minkan ankan is_zimo player_wind
            round_wind).fu_round) is_dealer is_zimo > 0 then (300 : Int) else 0) := by
        split_ifs <;> norm_num
      have hprod := mul_nonneg hb hite
      show (0 : Int) ≤ score_calculation_base
          ((han_calculation p final_tile melds minkan ankan is_zimo player_wind round_wind
            reach).han_sum + bonus)
          ((fu_calculation p final_tile melds minkan ankan is_zimo player_wind
            round_wind).fu_round) is_dealer is_zimo + 1000 * (reach_stick : Int) +
          (benchan : Int) * (if score_calculation_base
            ((han_calculation p final_tile melds minkan ankan is_zimo player_wind
              round_wind reach).han_sum + bonus)
            ((fu_calculation p final_tile melds minkan ankan is_zimo player_wind
              round_wind).fu_round) is_dealer is_zimo > 0 then (300 : Int) else 0)
      omega

/-- Loop body of score_calculation as a step function on the running best pair of score
and recorded result. -/
def bestStep (f : List (List Nat) → Option ScoreRes) (b : Int × Option ScoreRes)
    (p : List (List Nat)) : Int × Option ScoreRes :=
  match f p with
  | none => b
  | some c => if c.score > b.1 then (c.score, some c) else b

theorem bestStep_cases (f : List (List Nat) → Option ScoreRes)
    (b : Int × Option ScoreRes) (p : List (List Nat)) :
    bestStep f b p = b ∨
      ∃ c, f p = some c ∧ c.score > b.1 ∧ bestStep f b p = (c.score, some c) := by
  unfold bestStep
  cases hfp : f p with
  | none => exact Or.inl rfl
  | some c =>
    dsimp only
    split_ifs with hgt
    · exact Or.inr ⟨c, rfl, hgt, rfl⟩
    · exact Or.inl rfl

theorem bestStep_fst_le (f : List (List Nat) → Option ScoreRes)
    (b : Int × Option ScoreRes) (p : List (List Nat)) : b.1 ≤ (bestStep f b p).1 := by
  rcases bestStep_cases f b p with h | ⟨c, _, hgt, h⟩
  · rw [h]
  · rw [h]; exact le_of_lt hgt

theorem bestStep_dominates (f : List (List Nat) → Option ScoreRes)
    (b : Int × Option ScoreRes) (p : List (List Nat)) (c : ScoreRes)
    (hc : f p = some c) : c.score ≤ (bestStep f b p).1 := by
  unfold bestStep
  rw [hc]
  dsimp only
  split_ifs with hgt
  · exact le_refl _
  · omega

theorem bestFold_spec (f : List (List Nat) → Option ScoreRes) :
    ∀ (ps : List (List (List Nat))) (b : Int × Option ScoreRes),
      (∀ p ∈ ps, ∀ c, f p = some c → c.score ≤ (ps.foldl (bestStep f) b).1) ∧
      b.1 ≤ (ps.foldl (bestStep f) b).1 ∧
      ((ps.foldl (bestStep f) b).1 = b.1 ∧ (ps.foldl (bestStep f) b).2 = b.2 ∨
        ∃ p ∈ ps, ∃ c, f p = some c ∧ (ps.foldl (bestStep f) b).2 = some c ∧
          (ps.foldl (bestStep f) b).1 = c.score ∧ b.1 < c.score) := by
  intro ps
  induction ps with
  | nil =>
    intro b
    exact ⟨by simp, le_refl _, Or.inl ⟨rfl, rfl⟩⟩
  | cons p rest IH =>
    intro b
    simp only [List.foldl_cons]
    obtain ⟨IH1, IH2, IH3⟩ := IH (bestStep f b p)
    refine ⟨?_, le_trans (bestStep_fst_le f b p) IH2, ?_⟩
    · intro q hq c hc
      rcases List.mem_cons.mp hq with rfl | hq
      · exact le_trans (bestStep_dominates f b q c hc) IH2
      · exact IH1 q hq c hc
    · rcases IH3 with ⟨h1, h2⟩ | ⟨q, hq, c, hc, e2, e1, hlt⟩
      · rcases bestStep_cases f b p with hbs | ⟨c, hfp, hgt, hbs⟩
        · rw [hbs] at h1 h2 ⊢
          exact Or.inl ⟨h1, h2⟩
        · rw [hbs] at h1 h2 ⊢
          exact Or.inr ⟨p, List.mem_cons_self _ _, c, hfp, h2, h1, hgt⟩
      · refine Or.inr ⟨q, List.mem_cons_of_mem _ hq, c, hc, e2, e1, ?_⟩
        exact lt_of_le_of_lt (bestStep_fst_le f b p) hlt

theorem candidate_none_iff (p : List (List Nat)) (final_tile : Nat)
    (melds minkan ankan : List (List Nat)) (is_zimo : Bool)
    (player_wind round_wind : Nat) (reach : Bool) (bonus : Nat)
    (benchan reach_stick : Nat) (is_dealer : Bool) :
    candidate p final_tile melds minkan ankan is_zimo player_wind round_wind reach bonus
        benchan reach_stick is_dealer = none ↔
      (han_calculation p final_tile melds minkan ankan is_zimo player_wind round_wind
        reach).han_sum = 0 ∧
      (han_calculation p final_tile melds minkan ankan is_zimo player_wind round_wind
        reach).yk_sum = 0 := by
  unfold candidate
  by_cases h1 : ((han_calculation p final_tile melds minkan ankan is_zimo player_wind
      round_wind reach).han_sum = 0 ∧
      (han_calculation p final_tile melds minkan ankan is_zimo player_wind round_wind
        reach).yk_sum = 0)
  · rw [if_pos h1]
    simp [h1]
  · rw [if_neg h1]
    constructor
    · intro hc
      split_ifs at hc
    · intro hc
      exact absurd hc h1

theorem score_calculation_eq_fold (hand34 : List Nat) (final_tile : Nat)
    (melds minkan ankan : List (List Nat)) (is_zimo : Bool)
    (player_wind round_wind : Nat) (reach : Bool) (bonus_num : Nat)
    (bonus_tiles : List Nat) (benchan reach_stick : Nat) (is_dealer : Bool) :
    score_calculation hand34 final_tile melds minkan ankan is_zimo player_wind round_wind
        reach bonus_num bonus_tiles benchan reach_stick is_dealer =
      (if (win_parse hand34 final_tile).length = 0 then none
       else if ((win_parse hand34 final_tile).foldl
          (bestStep (fun p => candidate p final_tile melds minkan ankan is_zimo
            player_wind round_wind reach
            (bonus_num + (if final_tile ∈ bonus_tiles then 1 else 0))
            benchan reach_stick is_dealer)) ((0 : Int), (none : Option ScoreRes))).1 = 0
       then none
       else ((win_parse hand34 final_tile).foldl
          (bestStep (fun p => candidate p final_tile melds minkan ankan is_zimo
            player_wind round_wind reach
            (bonus_num + (if final_tile ∈ bonus_tiles then 1 else 0))
            benchan reach_stick is_dealer)) ((0 : Int), (none : Option ScoreRes))).2) :=
  rfl

end WinWaitCal

/-- Claim C3 (amended): score_calculation returns none exactly when win_parse yields no
decomposition or every decomposition is either skipped, for zero yaku han sum and zero
yakuman sum, or evaluates to a candidate of score zero, which the maximum fold cannot
distinguish from the initial best score; otherwise it returns a recorded candidate whose
score is positive and maximal among all candidates. -/
theorem claim_C3_amended (hand34 : List Nat) (final_tile : Nat)
    (melds minkan ankan : List (List Nat)) (is_zimo : Bool)
    (player_wind round_wind : Nat) (reach : Bool) (bonus_num : Nat)
    (bonus_tiles : List Nat) (benchan reach_stick : Nat) (is_dealer : Bool) :
    (WinWaitCal.score_calculation hand34 final_tile melds minkan ankan is_zimo player_wind
        round_wind reach bonus_num bonus_tiles benchan reach_stick is_dealer = none ↔
      ∀ p ∈ WinWaitCal.win_parse hand34 final_tile,
        ((WinWaitCal.han_calculation p final_tile melds minkan ankan is_zimo player_wind
            round_wind reach).han_sum = 0 ∧
          (WinWaitCal.han_calculation p final_tile melds minkan ankan is_zimo player_wind
            round_wind reach).yk_sum = 0) ∨
        ∃ c, WinWaitCal.candidate p final_tile melds minkan ankan is_zimo player_wind
            round_wind reach (bonus_num + (if final_tile ∈ bonus_tiles then 1 else 0))
            benchan reach_stick is_dealer = some c ∧ c.score = 0) ∧
    (∀ res, WinWaitCal.score_calculation hand34 final_tile melds minkan ankan is_zimo
        player_wind round_wind reach bonus_num bonus_tiles benchan reach_stick is_dealer
        = some res →
      0 < res.score ∧
      (∃ p ∈ WinWaitCal.win_parse hand34 final_tile,
        WinWaitCal.candidate p final_tile melds minkan ankan is_zimo player_wind
          round_wind reach (bonus_num + (if final_tile ∈ bonus_tiles then 1 else 0))
          benchan reach_stick is_dealer = some res) ∧
      ∀ p ∈ WinWaitCal.win_parse hand34 final_tile,
        ∀ c, WinWaitCal.candidate p final_tile melds minkan ankan is_zimo player_wind
            round_wind reach (bonus_num + (if final_tile ∈ bonus_tiles then 1 else 0))
            benchan reach_stick is_dealer = some c → c.score ≤ res.score) := by
  obtain ⟨S1, S2, S3⟩ := WinWaitCal.bestFold_spec
    (fun p => WinWaitCal.candidate p final_tile melds minkan ankan is_zimo player_wind
      round_wind reach (bonus_num + (if final_tile ∈ bonus_tiles then 1 else 0))
      benchan reach_stick is_dealer)
    (WinWaitCal.win_parse hand34 final_tile) ((0 : Int), (none : Option WinWaitCal.ScoreRes))
  rw [WinWaitCal.score_calculation_eq_fold]
  by_cases hlen : (WinWaitCal.win_parse hand34 final_tile).length = 0
  · rw [if_pos hlen]
    have hnil : WinWaitCal.win_parse hand34 final_tile = [] :=
      List.length_eq_zero.mp hlen
    constructor
    · constructor
      · intro _ p hp
        rw [hnil] at hp
        simp at hp
      · intro _
        rfl
    · intro res hres
      exact absurd hres (by simp)
  · rw [if_neg hlen]
    by_cases hz : ((WinWaitCal.win_parse hand34 final_tile).foldl
        (WinWaitCal.bestStep (fun p => WinWaitCal.candidate p final_tile melds minkan
          ankan is_zimo player_wind round_wind reach
          (bonus_num + (if final_tile ∈ bonus_tiles then 1 else 0))
          benchan reach_stick is_dealer)) ((0 : Int), (none : Option WinWaitCal.ScoreRes))).1 = 0
    · rw [if_pos hz]
      constructor
      · constructor
        · intro _ p hp
          cases hFp : WinWaitCal.candidate p final_tile melds minkan ankan is_zimo
              player_wind round_wind reach
              (bonus_num + (if final_tile ∈ bonus_tiles then 1 else 0))
              benchan reach_stick is_dealer with
          | none =>
            exact Or.inl ((WinWaitCal.candidate_none_iff p final_tile melds minkan ankan
              is_zimo player_wind round_wind reach
              (bonus_num + (if final_tile ∈ bonus_tiles then 1 else 0))
              benchan reach_stick is_dealer).mp hFp)
          | some c =>
            refine Or.inr ⟨c, rfl, ?_⟩
            have hle := S1 p hp c hFp
            rw [hz] at hle
            have hge := WinWaitCal.candidate_score_nonneg hFp
            omega
        · intro _
          rfl
      · intro res hres
        exact absurd hres (by simp)
    · rw [if_neg hz]
      rcases S3 with ⟨h1, _⟩ | ⟨q, hq, c, hcq, e2, e1, _⟩
      · exact absurd h1 hz
      · rw [e2]
        constructor
        · constructor
          · intro hnone
            exact absurd hnone (by simp)
          · intro hall
            rcases hall q hq with ⟨hh, hy⟩ | ⟨c2, hc2, hc2z⟩
            · have := (WinWaitCal.candidate_none_iff q final_tile melds minkan ankan
                is_zimo player_wind round_wind reach
                (bonus_num + (if final_tile ∈ bonus_tiles then 1 else 0))
                benchan reach_stick is_dealer).mpr ⟨hh, hy⟩
              rw [this] at hcq
              exact absurd hcq (by simp)
            · rw [hc2] at hcq
              rw [Option.some_inj] at hcq
              subst hcq
              rw [hc2z] at e1
              exact absurd e1 hz
        · intro res hres
          rw [Option.some_inj] at hres
          subst hres
          refine ⟨?_, ⟨q, hq, hcq⟩, ?_⟩
          · have hge := WinWaitCal.candidate_score_nonneg hcq
            rw [← e1]
            omega
          · intro p hp c2 hc2
            have := S1 p hp c2 hc2
            omega

namespace WinWaitCal

/-- Award value of each fu category, the number the source passes to add_base for that
description key. -/
def fuVal : FuCat → Nat
  | .chiitoi25 => 25
  | .pinfuTsumo20 => 20
  | .pinfuRon30 => 30
  | .yaoAnko => 8
  | .yaoMinko => 4
  | .chuAnko => 4
  | .chuMinko => 2
  | .yaoMinkan => 16
  | .chuMinkan => 8
  | .yaoAnkan => 32
  | .chuAnkan => 16
  | .sangenPair => 2
  | .selfWindPair => 2
  | .roundWindPair => 2
  | .tanki => 2
  | .edgeWait => 2
  | .zimoFu => 2
  | .menqingRon => 10

/-- The eighteen fu categories, each listed once. -/
def allFuCats : List FuCat :=
  [.chiitoi25, .pinfuTsumo20, .pinfuRon30, .yaoAnko, .yaoMinko, .chuAnko, .chuMinko,
   .yaoMinkan, .chuMinkan, .yaoAnkan, .chuAnkan, .sangenPair, .selfWindPair,
   .roundWindPair, .tanki, .edgeWait, .zimoFu, .menqingRon]

theorem allFuCats_nodup : allFuCats.Nodup := by decide

theorem allFuCats_complete (c : FuCat) : c ∈ allFuCats := by cases c <;> decide

/-- Guard of the flat pinfu-shape special case of fu_calculation: exactly when it holds for
a non-seven-pairs partition, fu_calculation takes one of the two early flat 20/30 returns
instead of the itemized computation. -/
def fuFlatGuard (hand_partition : List (List Nat)) (final_tile : Nat)
    (melds : List (List Nat)) (is_zimo : Bool) (player_wind round_wind : Nat) : Prop :=
  hand_partition.length + melds.length = 5 ∧
  (let chows := (hand_partition ++ melds).filter (fun m => nth m 0 ≠ nth m 1)
   let pair := (hand_partition.filter (fun m => m.length = 2)).headD []
   (chows.length = 4 ∧ nth pair 0 ∉ Tile.THREES ++ [player_wind, round_wind]) ∧
   (chows.filter (fun chw => final_tile ∈ chw) |>.any (fun chw =>
     (nth chw 0 = final_tile ∧ nth chw 0 % 9 ≠ 6) ∨
     (nth chw 2 = final_tile ∧ nth chw 2 % 9 ≠ 2))) = true ∧
   ((is_zimo ∧ melds.length = 0) ∨ (¬is_zimo ∧ melds.length > 0)))

instance fuFlatGuardDec (hand_partition : List (List Nat)) (final_tile : Nat)
    (melds : List (List Nat)) (is_zimo : Bool) (player_wind round_wind : Nat) :
    Decidable (fuFlatGuard hand_partition final_tile melds is_zimo player_wind
      round_wind) := by
  unfold fuFlatGuard
  exact inferInstance

/-- Outside the seven-pairs case and the flat guard, fu_calculation is exactly the itemized
dictionary computation. -/
theorem fu_calculation_itemized (hand_partition : List (List Nat)) (final_tile : Nat)
    (melds minkan ankan : List (List Nat)) (is_zimo : Bool) (player_wind round_wind : Nat)
    (h7 : hand_partition.length ≠ 7)
    (hfg : ¬fuFlatGuard hand_partition final_tile melds is_zimo player_wind round_wind) :
    fu_calculation hand_partition final_tile melds minkan ankan is_zimo player_wind
        round_wind =
      ⟨fuDict hand_partition final_tile melds minkan ankan is_zimo player_wind round_wind,
       sumVals (fuDict hand_partition final_tile melds minkan ankan is_zimo player_wind
         round_wind),
       (pydiv ((sumVals (fuDict hand_partition final_tile melds minkan ankan is_zimo
         player_wind round_wind) : Int) - 1) 10 + 1) * 10⟩ := by
  simp only [fu_calculation]
  rw [if_neg h7]
  split
  · rename_i r heq
    exfalso
    apply hfg
    unfold fuFlatGuard
    split_ifs at heq with h1 h2 h3 h4 h5
    · exact ⟨h1, h2, h3, Or.inl h4⟩
    · exact ⟨h1, h2, h3, Or.inr h5⟩
  · rfl

end WinWaitCal

/-- Key list of dinsert: unchanged for a present key, the new key appended otherwise. -/
theorem dinsert_keys {α : Type} [DecidableEq α] (d : List (α × Nat)) (k : α) (v : Nat) :
    (dinsert d k v).map Prod.fst =
      if k ∈ d.map Prod.fst then d.map Prod.fst else d.map Prod.fst ++ [k] := by
  unfold dinsert
  split_ifs with hk
  · rw [List.map_map]
    apply List.map_congr_left
    intro e _
    by_cases h : e.1 = k
    · simp [h]
    · simp [h]
  · simp

/-- dinsert with the conforming value keeps every stored value equal to the value function
of its key. -/
theorem dinsert_conform {α : Type} [DecidableEq α] {f : α → Nat} {d : List (α × Nat)}
    (hd : ∀ e ∈ d, e.2 = f e.1) (k : α) :
    ∀ e ∈ dinsert d k (f k), e.2 = f e.1 := by
  intro e he
  unfold dinsert at he
  split_ifs at he with hk
  · rcases List.mem_map.mp he with ⟨e', he', rfl⟩
    by_cases h : e'.1 = k
    · simp [h]
    · simp only [if_neg h]
      exact hd e' he'
  · rcases List.mem_append.mp he with h | h
    · exact hd e h
    · simp only [List.mem_singleton] at h
      subst h
      rfl

/-- On a conforming dictionary, dinsert of a conforming value adds the value when the key
is fresh and leaves the sum unchanged when the key is already present. -/
theorem dinsert_sum {α : Type} [DecidableEq α] {f : α → Nat} {d : List (α × Nat)}
    (hd : ∀ e ∈ d, e.2 = f e.1) (k : α) :
    sumVals (dinsert d k (f k)) =
      sumVals d + (if k ∈ d.map Prod.fst then 0 else f k) := by
  unfold dinsert
  split_ifs with hk
  · have hmap : d.map (fun e => if e.1 = k then (k, f k) else e) = d := by
      conv_rhs => rw [← List.map_id d]
      apply List.map_congr_left
      intro e he
      obtain ⟨a, b⟩ := e
      by_cases h : a = k
      · subst h
        have h2 := hd (a, b) he
        simp only at h2
        simp [h2]
      · simp [h]
    rw [hmap]
    simp
  · simp [sumVals]

/-- Conformity is preserved by the left fold of dinsert over a conforming write list. -/
theorem fold_dinsert_conform {α : Type} [DecidableEq α] {f : α → Nat} :
    ∀ ws d : List (α × Nat), (∀ e ∈ ws, e.2 = f e.1) → (∀ e ∈ d, e.2 = f e.1) →
      ∀ e ∈ ws.foldl (fun d e => dinsert d e.1 e.2) d, e.2 = f e.1 := by
  intro ws
  induction ws with
  | nil =>
    intro d _ hd
    simpa using hd
  | cons w ws ih =>
    intro d hws hd
    simp only [List.foldl_cons]
    apply ih
    · intro e he
      exact hws e (List.mem_cons_of_mem w he)
    · have hw : w.2 = f w.1 := hws w (List.mem_cons_self w ws)
      rw [hw]
      exact dinsert_conform hd w.1

/-- A key is in the folded dictionary exactly when it is in the start dictionary or among
the written keys. -/
theorem fold_dinsert_keys_mem {α : Type} [DecidableEq α] :
    ∀ (ws d : List (α × Nat)) (a : α),
      (a ∈ (ws.foldl (fun d e => dinsert d e.1 e.2) d).map Prod.fst ↔
        a ∈ d.map Prod.fst ∨ a ∈ ws.map Prod.fst) := by
  intro ws
  induction ws with
  | nil =>
    intro d a
    simp
  | cons w ws ih =>
    intro d a
    simp only [List.foldl_cons, List.map_cons, List.mem_cons]
    rw [ih]
    have hk : a ∈ (dinsert d w.1 w.2).map Prod.fst ↔ a ∈ d.map Prod.fst ∨ a = w.1 := by
      rw [dinsert_keys]
      split_ifs with h
      · constructor
        · exact Or.inl
        · rintro (h1 | rfl)
          · exact h1
          · exact h
      · simp
    rw [hk]
    tauto

/-- The folded dictionary keeps its key list duplicate-free. -/
theorem fold_dinsert_keys_nodup {α : Type} [DecidableEq α] :
    ∀ ws d : List (α × Nat), (d.map Prod.fst).Nodup →
      ((ws.foldl (fun d e => dinsert d e.1 e.2) d).map Prod.fst).Nodup := by
  intro ws
  induction ws with
  | nil =>
    intro d hd
    simpa using hd
  | cons w ws ih =>
    intro d hd
    simp only [List.foldl_cons]
    apply ih
    rw [dinsert_keys]
    split_ifs with h
    · exact hd
    · refine List.Nodup.append hd (List.nodup_singleton _) ?_
      intro a ha hb
      simp only [List.mem_singleton] at hb
      subst hb
      exact h ha

namespace WinWaitCal

/-- The value sum of a duplicate-free, value-conforming fu dictionary is the sum of fuVal
over the categories present in it. -/
theorem sumVals_conform_nodup {q : List (FuCat × Nat)}
    (hnd : (q.map Prod.fst).Nodup) (hconf : ∀ e ∈ q, e.2 = fuVal e.1) :
    sumVals q = ((allFuCats.filter (fun c => c ∈ q.map Prod.fst)).map fuVal).sum := by
  have h1 : sumVals q = ((q.map Prod.fst).map fuVal).sum := by
    unfold sumVals
    rw [List.map_map]
    congr 1
    apply List.map_congr_left
    intro e he
    exact hconf e he
  rw [h1]
  have hperm : (allFuCats.filter (fun c => c ∈ q.map Prod.fst)).Perm (q.map Prod.fst) := by
    apply List.perm_of_nodup_nodup_toFinset_eq
    · exact List.Nodup.filter _ allFuCats_nodup
    · exact hnd
    · ext a
      simp only [List.mem_toFinset, List.mem_filter, decide_eq_true_eq]
      constructor
      · exact fun h => h.2
      · exact fun h => ⟨allFuCats_complete a, h⟩
  exact ((hperm.map fuVal).sum_eq).symm

/-- Summing fuVal over a filtered category list equals summing the guarded values over the
whole list. -/
theorem sum_map_filter_ite (S : List FuCat) :
    ∀ l : List FuCat,
      ((l.filter (fun c => c ∈ S)).map fuVal).sum =
        (l.map (fun c => if c ∈ S then fuVal c else 0)).sum := by
  intro l
  induction l with
  | nil => rfl
  | cons a l ih =>
    by_cases h : a ∈ S
    · simp [List.filter_cons, h, ih]
    · simp [List.filter_cons, h, ih]

/-- Every add_base write of the itemized fu computation stores fuVal of its category. -/
theorem fuWrites_conform (hand_partition : List (List Nat)) (final_tile : Nat)
    (melds minkan ankan : List (List Nat)) (is_zimo : Bool)
    (player_wind round_wind : Nat) :
    ∀ e ∈ fuWrites hand_partition final_tile melds minkan ankan is_zimo player_wind
      round_wind, e.2 = fuVal e.1 := by
  intro e he
  simp only [fuWrites, List.mem_append] at he
  rcases he with ((((h | h) | h) | h) | h) | h
  · simp only [keziWritesHand, List.mem_flatten, List.mem_map] at h
    obtain ⟨l, ⟨m, hm, rfl⟩, hme⟩ := h
    split_ifs at hme <;> simp_all [fuVal]
  · simp only [keziWritesMelds, List.mem_flatten, List.mem_map] at h
    obtain ⟨l, ⟨m, hm, rfl⟩, hme⟩ := h
    split_ifs at hme <;> simp_all [fuVal]
  · simp only [kanWrites, List.mem_append, List.mem_flatten, List.mem_map] at h
    rcases h with h | h
    all_goals obtain ⟨l, ⟨m, hm, rfl⟩, hme⟩ := h
    all_goals split_ifs at hme <;> simp_all [fuVal]
  · simp only [pairWrites, List.mem_append] at h
    rcases h with (h | h) | h <;> split_ifs at h <;> simp_all [fuVal]
  · simp only [waitWrites] at h
    split_ifs at h <;> simp_all [fuVal]
  · simp only [winWrites, List.mem_append] at h
    rcases h with h | h <;> split_ifs at h <;> simp_all [fuVal]

/-- The fu dictionary conforms: every stored value is fuVal of its key. -/
theorem fuDict_conform (hand_partition : List (List Nat)) (final_tile : Nat)
    (melds minkan ankan : List (List Nat)) (is_zimo : Bool)
    (player_wind round_wind : Nat) :
    ∀ e ∈ fuDict hand_partition final_tile melds minkan ankan is_zimo player_wind
      round_wind, e.2 = fuVal e.1 := by
  simp only [fuDict]
  exact fold_dinsert_conform _ _
    (fuWrites_conform hand_partition final_tile melds minkan ankan is_zimo player_wind
      round_wind)
    (by simp)

/-- The fu dictionary has duplicate-free keys. -/
theorem fuDict_keys_nodup (hand_partition : List (List Nat)) (final_tile : Nat)
    (melds minkan ankan : List (List Nat)) (is_zimo : Bool)
    (player_wind round_wind : Nat) :
    ((fuDict hand_partition final_tile melds minkan ankan is_zimo player_wind
      round_wind).map Prod.fst).Nodup := by
  simp only [fuDict]
  exact fold_dinsert_keys_nodup _ _ (by simp)

/-- The fu dictionary holds exactly the written categories. -/
theorem fuDict_keys_mem (hand_partition : List (List Nat)) (final_tile : Nat)
    (melds minkan ankan : List (List Nat)) (is_zimo : Bool)
    (player_wind round_wind : Nat) (c : FuCat) :
    c ∈ (fuDict hand_partition final_tile melds minkan ankan is_zimo player_wind
        round_wind).map Prod.fst ↔
      c ∈ (fuWrites hand_partition final_tile melds minkan ankan is_zimo player_wind
        round_wind).map Prod.fst := by
  simp only [fuDict]
  rw [fold_dinsert_keys_mem]
  simp

end WinWaitCal

/-- Claim C1 counterexample: for the concealed ron hand 222m 333m 234p 234s EE* with wait
on the 4p of a 234p run treated as an edge wait, final tile 4p, seat and round wind East,
fu_calculation returns a raw subtotal of 18 (4 for one simple concealed triplet category
counted once although two such triplets are present, 2 for the dragon pair, 2 for the wait,
10 for the concealed ron, and no base 20), while the claim predicts 20 + (4 + 4 + 2 + 2 +
10) = 42. -/
theorem claim_C1_counterexample :
    (WinWaitCal.fu_calculation [[1, 1, 1], [2, 2, 2], [9, 10, 11], [18, 19, 20], [31, 31]]
        11 [] [] [] false 27 27).fu_sum = 18 ∧ (18 : Nat) ≠ 20 + (4 + 4 + 2 + 2 + 10) := by
  decide

/-- Claim C1 (amended): for every decomposition scored by the itemized fu rules (not seven
pairs and not a flat 20/30 pinfu-shape case), the raw fu subtotal of fu_calculation has no
base 20 and equals the sum, over the DISTINCT award categories written by the itemized
checks, of one award value per category: because the awards are stored in a dictionary
keyed by description, two triplets or quads of the same category contribute only once. -/
theorem claim_C1_amended (hand_partition : List (List Nat)) (final_tile : Nat)
    (melds minkan ankan : List (List Nat)) (is_zimo : Bool) (player_wind round_wind : Nat)
    (h7 : hand_partition.length ≠ 7)
    (hfg : ¬WinWaitCal.fuFlatGuard hand_partition final_tile melds is_zimo player_wind
      round_wind) :
    (WinWaitCal.fu_calculation hand_partition final_tile melds minkan ankan is_zimo
        player_wind round_wind).fu_sum =
      (WinWaitCal.allFuCats.map (fun c =>
        if c ∈ (WinWaitCal.fuWrites hand_partition final_tile melds minkan ankan is_zimo
            player_wind round_wind).map Prod.fst
        then WinWaitCal.fuVal c else 0)).sum := by
  rw [WinWaitCal.fu_calculation_itemized hand_partition final_tile melds minkan ankan
    is_zimo player_wind round_wind h7 hfg]
  show sumVals (WinWaitCal.fuDict hand_partition final_tile melds minkan ankan is_zimo
    player_wind round_wind) = _
  rw [WinWaitCal.sumVals_conform_nodup
    (WinWaitCal.fuDict_keys_nodup hand_partition final_tile melds minkan ankan is_zimo
      player_wind round_wind)
    (WinWaitCal.fuDict_conform hand_partition final_tile melds minkan ankan is_zimo
      player_wind round_wind)]
  rw [List.filter_congr (fun a _ => decide_eq_decide.mpr
    (WinWaitCal.fuDict_keys_mem hand_partition final_tile melds minkan ankan is_zimo
      player_wind round_wind a))]
  exact WinWaitCal.sum_map_filter_ite _ WinWaitCal.allFuCats

/-- Witness for the amended claim C1 at the counterexample hand: neither special case
applies and the itemized subtotal 18 equals the distinct-category award sum. -/
theorem claim_C1_amended_witness :
    ((([[1, 1, 1], [2, 2, 2], [9, 10, 11], [18, 19, 20], [31, 31]] :
        List (List Nat)).length ≠ 7) ∧
      ¬WinWaitCal.fuFlatGuard [[1, 1, 1], [2, 2, 2], [9, 10, 11], [18, 19, 20], [31, 31]]
        11 [] false 27 27) ∧
    (WinWaitCal.fu_calculation [[1, 1, 1], [2, 2, 2], [9, 10, 11], [18, 19, 20], [31, 31]]
        11 [] [] [] false 27 27).fu_sum =
      (WinWaitCal.allFuCats.map (fun c =>
        if c ∈ (WinWaitCal.fuWrites [[1, 1, 1], [2, 2, 2], [9, 10, 11], [18, 19, 20],
            [31, 31]] 11 [] [] [] false 27 27).map Prod.fst
        then WinWaitCal.fuVal c else 0)).sum :=
  ⟨⟨by decide, by decide⟩,
    claim_C1_amended [[1, 1, 1], [2, 2, 2], [9, 10, 11], [18, 19, 20], [31, 31]] 11
      [] [] [] false 27 27 (by decide) (by decide)⟩

namespace WinWaitCal

/-- Per-suit length-mod-3 metrics computed by the general branch of waiting_calculation. -/
def waitingMetrics (hand34 : List Nat) : List Nat :=
  [(hand34.filter (fun t => t < 9)).length % 3,
   (hand34.filter (fun t => 9 ≤ t ∧ t < 18)).length % 3,
   (hand34.filter (fun t => 18 ≤ t ∧ t < 27)).length % 3,
   (hand34.filter (fun t => 27 ≤ t)).length % 3]

/-- Condition of the first possible_tiles branch of waiting_calculation. -/
def waitingOneSuitCond (m : List Nat) : Prop := 1 ∈ m ∧ 2 ∉ m ∧ m.count 1 = 1

/-- Condition of the second possible_tiles branch of waiting_calculation. -/
def waitingTwoSuitCond (m : List Nat) : Prop := 2 ∈ m ∧ 1 ∉ m ∧ m.count 2 = 2

instance waitingOneSuitCondDec (m : List Nat) : Decidable (waitingOneSuitCond m) := by
  unfold waitingOneSuitCond
  exact inferInstance

instance waitingTwoSuitCondDec (m : List Nat) : Decidable (waitingTwoSuitCond m) := by
  unfold waitingTwoSuitCond
  exact inferInstance

/-- Value bound to possible_tiles by the second branch of waiting_calculation: for each of
the at most two suits whose metric is 2 the source appends the WHOLE suit range as one
list, so the loop variable pt, which is then passed as the final_tile argument of
score_calculation, ranges over lists of tiles instead of single tiles. -/
def waitingPossibleTilesTwoSuit (m : List Nat) : List (List Nat) :=
  ((List.range 3).filter (fun i => nth m i = 2)).map
    (fun i => (List.range 9).map (fun j => i * 9 + j))
  ++ (if nth m 3 = 2 then [(List.range 7).map (fun j => 27 + j)] else [])

end WinWaitCal

/-- Claim C6: refuted by a code bug.  For the 13-tile hand 11m 1122233456s waiting on two
suits, the general branch of waiting_calculation is reached (the hand has 13 tiles and 8
distinct values), the one-suit branch does not fire, the two-suit branch does, and
possible_tiles becomes the two whole nine-tile suit ranges as nested lists; each of these
lists is then passed as the final_tile of score_calculation, where win_parse evaluates
set(hand34 + [final_tile]) on an unhashable list element, so the call raises a TypeError
instead of returning a mapping keyed by single candidate tiles. -/
theorem claim_C6 :
    ([(0 : Nat), 0, 9, 9, 18, 18, 19, 19, 20, 20, 21, 22, 23].length = 13 ∧
      ([(0 : Nat), 0, 9, 9, 18, 18, 19, 19, 20, 20, 21, 22, 23].dedup.length ≠ 7 ∧
       ¬[(0 : Nat), 0, 9, 9, 18, 18, 19, 19, 20, 20, 21, 22, 23].dedup.length ≥ 12)) ∧
    WinWaitCal.waitingMetrics [0, 0, 9, 9, 18, 18, 19, 19, 20, 20, 21, 22, 23]
      = [2, 2, 0, 0] ∧
    ¬WinWaitCal.waitingOneSuitCond
      (WinWaitCal.waitingMetrics [0, 0, 9, 9, 18, 18, 19, 19, 20, 20, 21, 22, 23]) ∧
    WinWaitCal.waitingTwoSuitCond
      (WinWaitCal.waitingMetrics [0, 0, 9, 9, 18, 18, 19, 19, 20, 20, 21, 22, 23]) ∧
    WinWaitCal.waitingPossibleTilesTwoSuit
        (WinWaitCal.waitingMetrics [0, 0, 9, 9, 18, 18, 19, 19, 20, 20, 21, 22, 23]) =
      [[0, 1, 2, 3, 4, 5, 6, 7, 8], [9, 10, 11, 12, 13, 14, 15, 16, 17]] ∧
    ∀ pt ∈ WinWaitCal.waitingPossibleTilesTwoSuit
        (WinWaitCal.waitingMetrics [0, 0, 9, 9, 18, 18, 19, 19, 20, 20, 21, 22, 23]),
      pt.length = 9 := by
  decide
